import Mathlib

set_option maxRecDepth 16000

/-!
Shallow embedding of `scripts/check_layout_sections.py` over `List Char`,
together with theorems settling the specification claims about the
brace-balance heuristic, the opening-shape check, the whitespace-insensitive
anchor locator, the comparator and the head-noise normalizer.

Python strings are modelled as `List Char`.  Whitespace, line-break and word
character classes follow Python's `str.isspace`, `str.splitlines` and the
`re` module's `\s` / `\w` (restricted to the ASCII / Latin-1 range plus the
line/paragraph separators, which is the alphabet the program works with).
-/

/-- Characters stripped by Python `str.strip()` and matched by `re` `\s`. -/
def isPyWs (c : Char) : Bool :=
  c == ' ' || c == '\t' || c == '\n' || c == '\r' || c == '\x0b' || c == '\x0c' ||
  c == '\x1c' || c == '\x1d' || c == '\x1e' || c == '\x1f' || c == '\x85' ||
  c == '\xa0' || c == '\u2028' || c == '\u2029'

/-- Line boundaries recognised by Python `str.splitlines`. -/
def isLineBreak (c : Char) : Bool :=
  c == '\n' || c == '\r' || c == '\x0b' || c == '\x0c' ||
  c == '\x1c' || c == '\x1d' || c == '\x1e' || c == '\x85' ||
  c == '\u2028' || c == '\u2029'

/-- Characters matched by `re` `\w` (ASCII range). -/
def isWordChar (c : Char) : Bool := c.isAlphanum || c == '_'

theorem ws_of_lineBreak {c : Char} (h : isLineBreak c = true) : isPyWs c = true := by
  simp only [isLineBreak, Bool.or_eq_true, beq_iff_eq] at h
  simp only [isPyWs, Bool.or_eq_true, beq_iff_eq]
  tauto

/-- `startsWith pat s`: `pat` is a prefix of `s` (Python `str.startswith`). -/
def startsWith : List Char → List Char → Bool
  | [], _ => true
  | _ :: _, [] => false
  | p :: ps, x :: xs => p == x && startsWith ps xs

/-- `containsSub pat s`: `pat` occurs as a contiguous substring of `s`
(Python's `in` operator on strings). -/
def containsSub (pat : List Char) : List Char → Bool
  | [] => startsWith pat []
  | s@(_ :: xs) => startsWith pat s || containsSub pat xs

/-- Python `str.splitlines`: a `"\r\n"` pair is a single boundary, every
other line-break character is a boundary by itself, and no trailing empty
line is produced for a terminating boundary. -/
def splitlinesPy : List Char → List (List Char)
  | [] => []
  | [c] => if isLineBreak c then [[]] else [[c]]
  | c :: d :: rest =>
    if isLineBreak c then
      if c = '\r' ∧ d = '\n' then [] :: splitlinesPy rest
      else [] :: splitlinesPy (d :: rest)
    else
      match splitlinesPy (d :: rest) with
      | [] => [[c]]
      | l :: ls => (c :: l) :: ls

/-- Python `"\n".join`. -/
def joinLines : List (List Char) → List Char
  | [] => []
  | [l] => l
  | l :: ls => l ++ '\n' :: joinLines ls

/-- Python `str.rstrip()` (no arguments: strips trailing whitespace). -/
def rstripList (s : List Char) : List Char :=
  (s.reverse.dropWhile isPyWs).reverse

/-- Python `str.strip()` on both ends. -/
def pyStrip (s : List Char) : List Char :=
  ((s.dropWhile isPyWs).reverse.dropWhile isPyWs).reverse

/-- State machine for `re.sub(r"\s+", " ", s)`: collapses every maximal
whitespace run to a single space.  The flag records whether the previous
character was part of a whitespace run already emitted. -/
def collapseWsGo : Bool → List Char → List Char
  | _, [] => []
  | prevWs, c :: rest =>
    if isPyWs c then
      if prevWs then collapseWsGo true rest else ' ' :: collapseWsGo true rest
    else c :: collapseWsGo false rest

/-- `norm_ws` from the source: `re.sub(r"\s+", " ", s).strip()`. -/
def norm_ws (s : List Char) : List Char := pyStrip (collapseWsGo false s)

/-!
### `strip_razor_comments`

The source applies three `re.sub` passes to the concatenated code lines:

* `re.sub(r'@\\*.*?\\*@', '', s, flags=re.S)`
* `re.sub(r'/\\*.*?\\*/', '', s, flags=re.S)`
* `re.sub(r'//.*', '', s)`

In a raw string `@\\*` is the character `@` followed by an *escaped
backslash* and a `*` quantifier, i.e. the pattern is `@`, zero or more
literal backslashes, a lazy gap, zero or more literal backslashes, `@`.
Since the lazy gap can absorb backslashes as well, each match runs from an
`@` to the next `@` (leftmost, non-overlapping, resuming after the match);
likewise the second pass pairs up `/` characters.  We model this exactly:
`removePairs c` deletes the text between consecutive pairs of `c`,
scanning left to right, keeping a final unpaired `c`.
-/

/-- Split a list at every occurrence of `c` (the separators are dropped;
result is always nonempty). -/
def splitOnChar (c : Char) : List Char → List (List Char)
  | [] => [[]]
  | x :: xs =>
    if x == c then [] :: splitOnChar c xs
    else
      match splitOnChar c xs with
      | [] => [[x]]
      | p :: ps => (x :: p) :: ps

/-- Reassemble the pieces of `splitOnChar c`, dropping every piece that sat
between the (2i+1)-th and (2i+2)-th separator, and keeping a final unpaired
separator.  This is the effect of `re.sub(c + ".*?" + c, '', s, flags=re.S)`. -/
def rpAux (c : Char) : List (List Char) → List Char
  | [] => []
  | [p] => p
  | [p, q] => p ++ c :: q
  | p :: _ :: rest => p ++ rpAux c rest

/-- Delete every leftmost non-overlapping `c…c` pair (lazy gap), as
`re.sub` does with the doubled-backslash patterns of the source. -/
def removePairs (c : Char) (s : List Char) : List Char :=
  rpAux c (splitOnChar c s)

/-- State machine for `re.sub(r'//.*', '', s)`: from each `//` on, drop
characters up to (but not including) the next `'\n'`.  The flag records
whether we are inside a line comment. -/
def rlcGo : Bool → List Char → List Char
  | _, [] => []
  | true, c :: rest => if c = '\n' then c :: rlcGo false rest else rlcGo true rest
  | false, [c] => [c]
  | false, c :: d :: rest =>
    if c = '/' ∧ d = '/' then rlcGo true rest
    else c :: rlcGo false (d :: rest)

def removeLineComments (s : List Char) : List Char := rlcGo false s

/-- `strip_razor_comments` from the source (with the doubled-backslash
regexes modelled by their actual effect, see above). -/
def strip_razor_comments (s : List Char) : List Char :=
  removeLineComments (removePairs '/' (removePairs '@' s))

/-- Line classification of `brace_balance`: a line is structurally
significant when, after `lstrip()`, it starts with `@`, `{` or `}`, or
contains `@if`, `@foreach` or `@switch`. -/
def is_code_line (ln : List Char) : Bool :=
  let ls := ln.dropWhile isPyWs
  startsWith ("@".data) ls || startsWith ("\x7b".data) ls || startsWith ("\x7d".data) ls ||
  containsSub ("@if".data) ls || containsSub ("@foreach".data) ls ||
  containsSub ("@switch".data) ls

/-- The concatenated, comment-stripped structurally-significant text of a
block (the `txt` local of `brace_balance`). -/
def codeText (block : List Char) : List Char :=
  strip_razor_comments (joinLines ((splitlinesPy block).filter is_code_line))

def opensOf (block : List Char) : Nat := (codeText block).count '\x7b'

def closesOf (block : List Char) : Nat := (codeText block).count '\x7d'

/-- `brace_balance` from the source: `(opens == closes, opens, closes)`. -/
def brace_balance (block : List Char) : Bool × Nat × Nat :=
  (opensOf block == closesOf block, opensOf block, closesOf block)

/-!
### `ensure_starts_with_if_block` and `validate_and_maybe_fix`
-/

/-- First index (if any) at which `needle` occurs in `s`
(Python `str.find`, relative to the suffix searched). -/
def findSub (needle : List Char) : List Char → Option Nat
  | [] => if startsWith needle [] then some 0 else none
  | s@(_ :: xs) =>
    if startsWith needle s then some 0 else (findSub needle xs).map (· + 1)

/-- Fuelled version of the comment-skipping loop of
`ensure_starts_with_if_block`: while the text starts with an HTML comment
opener `<!--` that is closed later, or with a Razor comment opener `@*`
that is closed later, drop through the closer and any following
whitespace.  One unit of fuel per iteration; each iteration consumes at
least three characters, so `s.length` fuel is always enough. -/
def skipCommentsF : Nat → List Char → List Char
  | 0, s => s
  | fuel + 1, s =>
    if startsWith ("<!--".data) s then
      match findSub ("-->".data) s with
      | some j => skipCommentsF fuel ((s.drop (j + 3)).dropWhile isPyWs)
      | none => s
    else if startsWith ("@*".data) s then
      match findSub ("*@".data) s with
      | some j => skipCommentsF fuel ((s.drop (j + 2)).dropWhile isPyWs)
      | none => s
    else s

def skipComments (s : List Char) : List Char := skipCommentsF s.length s

/-- Deterministic matcher for `re.search(r'@if\s*\([^\)]*\)\s*\{', head)`
at the head of `s`. -/
def ifBraceAt (s : List Char) : Bool :=
  match s with
  | '@' :: 'i' :: 'f' :: rest =>
    match rest.dropWhile isPyWs with
    | '(' :: r2 =>
      match r2.dropWhile (fun c => !(c == ')')) with
      | ')' :: r4 => ((r4.dropWhile isPyWs).take 1) == "\x7b".data
      | _ => false
    | _ => false
  | _ => false

/-- `re.search` of the guard pattern anywhere in `s`. -/
def containsIfBrace : List Char → Bool
  | [] => false
  | s@(_ :: xs) => ifBraceAt s || containsIfBrace xs

/-- The `head` local of `ensure_starts_with_if_block`: the block after
skipping a leading BOM, leading whitespace and leading closed HTML/Razor
comments. -/
def noiseSkippedHead (block : List Char) : List Char :=
  skipComments ((block.dropWhile (fun c => c == '\uFEFF')).dropWhile isPyWs)

/-- `ensure_starts_with_if_block` (as a Boolean: `true` iff neither `fail`
fires).  Skips a leading BOM, leading whitespace and leading HTML/Razor
comments, then requires `head.startswith(start_literal)` and a
`@if (...) {` occurrence somewhere in `head` (the source uses `re.search`,
not `re.match`). -/
def ensure_starts_with_if_block (block lit : List Char) : Bool :=
  startsWith lit (noiseSkippedHead block) && containsIfBrace (noiseSkippedHead block)

/-- The trimming loop of `validate_and_maybe_fix`:
`while trimmed < need and t.endswith("}"): t = t[:-1].rstrip(); trimmed += 1`.
Returns the final `t` together with `trimmed`. -/
def trimClosers : Nat → List Char → List Char × Nat
  | 0, t => (t, 0)
  | need + 1, t =>
    if t.getLast? == some '\x7d' then
      let r := trimClosers need (rstripList t.dropLast)
      (r.1, r.2 + 1)
    else (t, 0)

/-- Lines 103–130 of the source: the balance check and repair logic of
`validate_and_maybe_fix` (everything after `ensure_starts_with_if_block`).
`none` models `fail(...)`. -/
def repair_braces (autoFix : Bool) (expected : List Char) : Option (List Char) :=
  match brace_balance expected with
  | (ok, opens, closes) =>
    if ok then some expected
    else
      let delta : Int := (opens : Int) - (closes : Int)
      if 0 < delta ∧ autoFix = true then
        let fixed := rstripList expected ++ '\n' :: (List.replicate delta.toNat '\x7d' ++ ['\n'])
        if (brace_balance fixed).1 then some fixed else none
      else if delta < 0 then
        let need := (-delta).toNat
        match trimClosers need (rstripList expected) with
        | (t, trimmed) =>
          if trimmed = need ∧ (brace_balance t).1 = true then some t else none
      else none

/-- `validate_and_maybe_fix` from the source: the opening-shape check runs
first and its failure is unconditional; then the balance check/repair. -/
def validate_and_maybe_fix (autoFix : Bool) (expected lit : List Char) : Option (List Char) :=
  if ensure_starts_with_if_block expected lit then repair_braces autoFix expected else none

/-!
### `_strip_leading_noise`, `strip_region_wrappers`, `compare`
-/

/-- `line.strip() == ""`. -/
def isBlankLine (l : List Char) : Bool := l.all isPyWs

/-- Drop leading blank lines. -/
def dropBlanks (ls : List (List Char)) : List (List Char) := ls.dropWhile isBlankLine

/-- Index of the first line containing `needle` (the inner `j`-searches of
`_strip_leading_noise`, which scan the raw lines from the current one on). -/
def findCloserIdx (needle : List Char) : List (List Char) → Option Nat
  | [] => none
  | l :: ls =>
    if containsSub needle l then some 0 else (findCloserIdx needle ls).map (· + 1)

/-- Fuelled version of the comment-dropping loop of `_strip_leading_noise`,
acting on the line list after the initial blank-line drop: while the first
line (lstripped) opens an HTML or Razor comment whose closer occurs on some
line `j ≥ i`, drop through line `j` and then any blank lines; an unclosed
opener stops the loop without dropping anything.  Each iteration drops at
least one line, so `ls.length` fuel always suffices. -/
def stripNoiseGoF : Nat → List (List Char) → List (List Char)
  | 0, ls => ls
  | fuel + 1, ls =>
    match ls with
    | [] => []
    | l :: _ =>
      let ll := l.dropWhile isPyWs
      if startsWith ("<!--".data) ll then
        match findCloserIdx ("-->".data) ls with
        | some j => stripNoiseGoF fuel (dropBlanks (ls.drop (j + 1)))
        | none => ls
      else if startsWith ("@*".data) ll then
        match findCloserIdx ("*@".data) ls with
        | some j => stripNoiseGoF fuel (dropBlanks (ls.drop (j + 1)))
        | none => ls
      else ls

def stripNoiseGo (ls : List (List Char)) : List (List Char) :=
  stripNoiseGoF ls.length ls

/-- `_strip_leading_noise` from the source: strip a leading BOM, split into
lines, drop leading blank lines, drop leading closed HTML/Razor comment
blocks (with blank lines after each), and rejoin with `'\n'`. -/
def strip_leading_noise (s : List Char) : List Char :=
  joinLines (stripNoiseGo (dropBlanks (splitlinesPy
    (s.dropWhile (fun c => c == '\uFEFF')))))

/-- ASCII case folding: the marker regexes carry `re.IGNORECASE`, so cased
literal letters match either case.  (Folding is modeled on ASCII, matching
the regex literals in the source; exotic one-character Unicode folds and
non-ASCII `\w` word characters are outside the model.) -/
def foldNat (c : Char) : Nat :=
  if 65 ≤ c.toNat ∧ c.toNat ≤ 90 then c.toNat + 32 else c.toNat

/-- Case-insensitive character equality. -/
def ciEq (a b : Char) : Bool := foldNat a == foldNat b

/-- Case-insensitive prefix test. -/
def startsWithCI : List Char → List Char → Bool
  | [], _ => true
  | _ :: _, [] => false
  | p :: ps, c :: cs => ciEq p c && startsWithCI ps cs

/-- Deterministic matcher for the region-wrapper regex
`<!--\s*REGION:\s*\w+\.KIND\s*-->` (compiled with `re.IGNORECASE`) at the
head of `s`; returns the remainder after the match. -/
def matchMarker (kind : List Char) (s : List Char) : Option (List Char) :=
  if startsWithCI ("<!--".data) s then
    let s1 := (s.drop 4).dropWhile isPyWs
    if startsWithCI ("REGION:".data) s1 then
      let s2 := (s1.drop 7).dropWhile isPyWs
      if (s2.take 1).all isWordChar ∧ s2 ≠ [] then
        let s3 := s2.dropWhile isWordChar
        if startsWithCI ('.' :: kind) s3 then
          let s4 := (s3.drop (kind.length + 1)).dropWhile isPyWs
          if startsWithCI ("-->".data) s4 then some (s4.drop 3) else none
        else none
      else none
    else none
  else none

/-- Fuelled scan performing `re.sub` of the region-wrapper pattern with
`''`: at each position try the marker; on a match drop it and resume after
it, otherwise keep the character.  A match consumes at least one character,
so `s.length` fuel always suffices. -/
def removeMarkersF (kind : List Char) : Nat → List Char → List Char
  | _, [] => []
  | 0, s => s
  | fuel + 1, x :: xs =>
    match matchMarker kind (x :: xs) with
    | some rest => removeMarkersF kind fuel rest
    | none => x :: removeMarkersF kind fuel xs

def removeMarkers (kind : List Char) (s : List Char) : List Char :=
  removeMarkersF kind s.length s

/-- `strip_region_wrappers` from the source: remove `REGION: <name>.Start`
markers, then `REGION: <name>.End` markers. -/
def strip_region_wrappers (s : List Char) : List Char :=
  removeMarkers ("End".data) (removeMarkers ("Start".data) s)

/-- Outcome of `compare` for one section: `Match` prints OK and returns;
`Mismatch` carries the two head-normalized texts the diff is built from. -/
inductive ComparisonResult
  | Match : ComparisonResult
  | Mismatch : List Char → List Char → ComparisonResult
deriving DecidableEq

namespace Checker

/-- `compare` from the source (file reading elided: `gotRaw` is the text of
the split file).  Region wrappers are stripped from the candidate side
only, head noise from both sides, and the pass/fail decision is the
equality of the whitespace-collapsed texts. -/
def compare (expected gotRaw : List Char) : ComparisonResult :=
  let gotCore := strip_region_wrappers gotRaw
  let expN := strip_leading_noise expected
  let gotN := strip_leading_noise gotCore
  if norm_ws expN = norm_ws gotN then ComparisonResult.Match
  else ComparisonResult.Mismatch expN gotN

end Checker

/-!
### `find_ws_insensitive`
-/

/-- Python `hay.replace("\r\n", "\n")` (leftmost, non-overlapping). -/
def normCrlf : List Char → List Char
  | [] => []
  | '\r' :: '\n' :: rest => '\n' :: normCrlf rest
  | c :: rest => c :: normCrlf rest

/-- A token of the pattern built by `find_ws_insensitive`.  Python 3.7+
`re.escape` escapes, among the whitespace characters, exactly the ASCII
class `' '`, `'\t'`, `'\n'`, `'\r'`, `'\x0b'`, `'\x0c'`; the substitution
`re.sub(r"(\\\s)+", r"\\s+", esc)` therefore collapses exactly the maximal
runs of *those* characters into a single `\s+` wildcard, while every other
snippet character — including other whitespace such as U+00A0 or U+2028,
which `re.escape` leaves unescaped — stays a literal in the pattern. -/
inductive PatTok
  | lit : Char → PatTok
  | wsPlus : PatTok
deriving DecidableEq

/-- The whitespace characters `re.escape` escapes, i.e. the ones subject
to the `\s+` collapse. -/
def isEscWs (c : Char) : Bool :=
  c == ' ' || c == '\t' || c == '\n' || c == '\r' || c == '\x0b' || c == '\x0c'

/-- Tokenize the (CRLF-normalized) snippet: maximal runs of escapable
whitespace become `wsPlus`, every other character becomes a literal. -/
def tokenize : List Char → List PatTok
  | [] => []
  | c :: rest =>
    if isEscWs c then
      match tokenize rest with
      | PatTok.wsPlus :: ts => PatTok.wsPlus :: ts
      | ts => PatTok.wsPlus :: ts
    else PatTok.lit c :: tokenize rest

/-- Greedy backtracking for one `\s+` wildcard: try consuming `k` leading
characters, longest first, continuing with `f` on the remainder. -/
def tryShrink (f : List Char → Option Nat) (s : List Char) : Nat → Option Nat
  | 0 => none
  | k + 1 =>
    match f (s.drop (k + 1)) with
    | some m => some (k + 1 + m)
    | none => tryShrink f s k

/-- Fuelled matcher for the token pattern at the head of `s`, returning
the number of characters consumed.  A `wsPlus` consumes a nonempty run of
`\s` characters, greedily with backtracking — necessary because a literal
following a wildcard may itself be a whitespace character (for instance an
unescaped U+00A0 after a collapsed ASCII run).  One token is consumed per
level, so `toks.length` fuel always suffices. -/
def matchToksF : Nat → List PatTok → List Char → Option Nat
  | _, [], _ => some 0
  | 0, _ :: _, _ => none
  | fuel + 1, PatTok.lit c :: ts, s =>
    match s with
    | [] => none
    | x :: xs => if x == c then (matchToksF fuel ts xs).map (· + 1) else none
  | fuel + 1, PatTok.wsPlus :: ts, s =>
    tryShrink (matchToksF fuel ts) s (s.takeWhile isPyWs).length

def matchToks (toks : List PatTok) (s : List Char) : Option Nat :=
  matchToksF toks.length toks s

/-- `re.escape` leaves non-ASCII-class whitespace unescaped, so a snippet
backslash immediately followed by such a character makes `(\\\s)+` fire
across the *escaping* backslash of the preceding character, yielding a
pattern outside this token language; the faithful domain of `tokenize`
excludes that adjacency. -/
def noBsExoticWs : List Char → Bool
  | [] => true
  | [_] => true
  | a :: b :: rest =>
    !(a == '\\' && (isPyWs b && !isEscWs b)) && noBsExoticWs (b :: rest)

/-- Leftmost match of the token pattern in `s`: `(index, length)`. -/
def searchFrom (toks : List PatTok) : List Char → Option (Nat × Nat)
  | [] => (matchToks toks []).map (fun l => (0, l))
  | x :: xs =>
    match matchToks toks (x :: xs) with
    | some l => some (0, l)
    | none => (searchFrom toks xs).map (fun p => (p.1 + 1, p.2))

/-- `find_ws_insensitive` from the source: normalize CRLF on both sides,
escape the snippet, collapse whitespace runs to `\s+`, and search the
normalized haystack from `start`, returning `(start + m.start(), start +
m.end())`; `none` models the `(None, None)` return. -/
def find_ws_insensitive (hay snippet : List Char) (start : Nat) : Option (Nat × Nat) :=
  let hayN := normCrlf hay
  let snipN := normCrlf snippet
  let toks := tokenize snipN
  (searchFrom toks (hayN.drop start)).map (fun p => (start + p.1, start + p.1 + p.2))

/-!
### Claim theorems
-/

/-- Concrete block for claim C1: a single structurally-significant line
consisting of one Razor block comment `@* a@b { *@` whose text contains an
interior `@` and an opening structural token. -/
def c1Input : List Char := "@* a@b \x7b *@".data

/-- Claim C1 (code bug): the spec says structural tokens inside Razor block
comments never contribute to the counts, so this block should count as
`(true, 0, 0)`.  The doubled-backslash regex of `strip_razor_comments`
instead pairs `@` characters, leaving `b { *@` behind, and the `{` inside
the comment is counted: `brace_balance` reports `(false, 1, 0)`. -/
theorem c1_comment_brace_counted : brace_balance c1Input = (false, 1, 0) := by decide

/-- Refinement term for claim C2, following the spec's words: after
skipping leading BOM/whitespace/comments, the block begins with the
conditional-guard literal followed (up to whitespace) immediately by an
opening structural token `{`. -/
def specBeginsWithGuardBrace (block lit : List Char) : Bool :=
  let head := noiseSkippedHead block
  startsWith lit head &&
    (((head.drop lit.length).dropWhile isPyWs).take 1 == "\x7b".data)

/-- Concrete block for claim C2: it starts with the guard literal, but the
opening structural token does not follow it — markup and a second,
different guard intervene. -/
def c2Block : List Char := "@if (lit)\n<div>hello</div>\n@if (x)\n\x7b\n\x7d".data

def c2Lit : List Char := "@if (lit)".data

/-- Claim C2 counterexample: this block does not begin with the guard
literal immediately followed by `{`, yet `validate_and_maybe_fix` succeeds
(the source only `re.search`es for `@if (...) {` anywhere in the block),
contradicting the claim that such a violation always fails. -/
theorem c2_counterexample :
    specBeginsWithGuardBrace c2Block c2Lit = false ∧
    validate_and_maybe_fix false c2Block c2Lit = some c2Block := by decide

/-- Claim C2 as amended: validation fails — for both values of the
auto-repair flag, and before any balance repair is consulted — unless the
block, after skipping leading BOM/whitespace/comments, starts with the
guard literal and moreover contains (anywhere) an `@if (...)` guard
followed by an opening structural token. -/
theorem c2_amended (autoFix : Bool) (e lit : List Char)
    (h : ¬ (startsWith lit (noiseSkippedHead e) = true ∧
            containsIfBrace (noiseSkippedHead e) = true)) :
    validate_and_maybe_fix autoFix e lit = none := by
  unfold validate_and_maybe_fix ensure_starts_with_if_block
  rw [if_neg]
  simp only [Bool.and_eq_true]
  exact h

/-- Witness for `c2_amended` at a concrete failing block. -/
theorem c2_amended_witness :
    validate_and_maybe_fix true ("zzz".data) ("@if (x)".data) = none :=
  c2_amended true ("zzz".data) ("@if (x)".data) (by decide)

/-- Claim C7: a block that passes the opening-shape check and whose counts
already balance is returned unchanged, for either flag value. -/
theorem c7_balanced_unchanged (autoFix : Bool) (e lit : List Char)
    (hok : ensure_starts_with_if_block e lit = true)
    (hbal : (brace_balance e).1 = true) :
    validate_and_maybe_fix autoFix e lit = some e := by
  unfold validate_and_maybe_fix
  rw [if_pos hok]
  unfold repair_braces
  simp only [brace_balance] at hbal ⊢
  rw [if_pos hbal]

/-- Witness for `c7_balanced_unchanged`. -/
theorem c7_witness :
    validate_and_maybe_fix true ("@if (x) \x7b\n\x7d".data) ("@if (x)".data)
      = some ("@if (x) \x7b\n\x7d".data) :=
  c7_balanced_unchanged true _ _ (by decide) (by decide)

/-- Claim C8 counterexample: `_strip_leading_noise` is not idempotent.  On
`"a\n\n"` the first pass keeps the trailing empty line and returns
`"a\n"`; the second pass loses it and returns `"a"`. -/
theorem c8_counterexample :
    strip_leading_noise (strip_leading_noise ("a\n\n".data))
      ≠ strip_leading_noise ("a\n\n".data) := by decide

/-- Claim C3 counterexample: on `"a\r\nb"` with snippet `"b"` the function
returns offsets `(2, 3)`, which address the CRLF-normalized haystack; in
the haystack as given, position 2 holds `'\n'`, not the matched snippet. -/
theorem c3_counterexample :
    find_ws_insensitive ("a\r\nb".data) ("b".data) 0 = some (2, 3) ∧
    (("a\r\nb".data).drop 2).take 1 ≠ "b".data := by decide

/-- Concrete block for claim C6: counts are `opens = 1 < closes = 2` and a
single `}` sits contiguously at the end of the block, but that trailing
token lives on a non-structural line (`<div>}`), so trimming it cannot
restore the counted balance. -/
def c6Block : List Char := "@if (x) \x7b\n\x7d\n\x7d\n<div>\x7d".data

/-- Claim C6 counterexample: the block is over-closed by `k = 1` and
exactly one closing token sits at its end (the trim loop removes it), yet
the repaired text does not balance and `validate_and_maybe_fix` fails
instead of returning the trimmed block. -/
theorem c6_counterexample :
    brace_balance c6Block = (false, 1, 2) ∧
    (trimClosers 1 (rstripList c6Block)).2 = 1 ∧
    validate_and_maybe_fix true c6Block ("@if (x)".data) = none := by decide

/-- Concrete block for claim C9, analogous to `c6Block`. -/
def c9Block : List Char := "@if (q) \x7b\n\x7d\n\x7d\n<p>\x7d".data

/-- Claim C9 counterexample: with the auto-repair flag off, a block
over-closed by one token with one `}` contiguous at its end is not
returned repaired — the re-check fails and the run fails. -/
theorem c9_counterexample :
    brace_balance c9Block = (false, 1, 2) ∧
    (trimClosers 1 (rstripList c9Block)).2 = 1 ∧
    validate_and_maybe_fix false c9Block ("@if (q)".data) = none := by decide

/-- Soundness of the search loop: a hit `(i, l)` means the token pattern
matches at offset `i` consuming `l` characters, and at no earlier offset. -/
theorem searchFrom_spec {toks : List PatTok} :
    ∀ {s : List Char} {i l : Nat}, searchFrom toks s = some (i, l) →
      matchToks toks (s.drop i) = some l ∧
      ∀ p, p < i → matchToks toks (s.drop p) = none := by
  intro s
  induction s with
  | nil =>
    intro i l h
    simp only [searchFrom, Option.map_eq_some'] at h
    obtain ⟨a, ha, hpair⟩ := h
    obtain ⟨hi, hl⟩ := Prod.mk.injEq .. ▸ hpair
    subst hi; subst hl
    exact ⟨ha, fun p hp => absurd hp (Nat.not_lt_zero p)⟩
  | cons x xs ih =>
    intro i l h
    simp only [searchFrom] at h
    cases hm : matchToks toks (x :: xs) with
    | some l0 =>
      rw [hm] at h
      obtain ⟨hi, hl⟩ := Prod.mk.injEq .. ▸ (Option.some.injEq .. ▸ h)
      subst hi; subst hl
      exact ⟨hm, fun p hp => absurd hp (Nat.not_lt_zero p)⟩
    | none =>
      rw [hm] at h
      simp only [Option.map_eq_some'] at h
      obtain ⟨⟨i', l'⟩, hsf, hpair⟩ := h
      obtain ⟨hi, hl⟩ := Prod.mk.injEq .. ▸ hpair
      subst hi; subst hl
      obtain ⟨h1, h2⟩ := ih hsf
      refine ⟨h1, fun p hp => ?_⟩
      cases p with
      | zero => exact hm
      | succ p' =>
        have : p' < i' := Nat.lt_of_succ_lt_succ hp
        exact h2 p' this

/-- Claim C3 as amended: for snippets in which no backslash is immediately
followed by a whitespace character that `re.escape` leaves unescaped,
`find_ws_insensitive` returns the leftmost match of the tokenized snippet
— maximal runs of escapable ASCII whitespace match any nonempty `\s` run,
every other character matches literally — at or after `fromOffset`, and
the returned `(start, end)` are absolute offsets into the *CRLF-normalized*
haystack (`hay` with every `"\r\n"` replaced by `"\n"`), not into the
haystack as given. -/
theorem c3_amended (hay snip : List Char) (start s e : Nat)
    ( _hok : noBsExoticWs (normCrlf snip) = true)
    (h : find_ws_insensitive hay snip start = some (s, e)) :
    start ≤ s ∧
    matchToks (tokenize (normCrlf snip)) ((normCrlf hay).drop s) = some (e - s) ∧
    ∀ p, start ≤ p → p < s →
      matchToks (tokenize (normCrlf snip)) ((normCrlf hay).drop p) = none := by
  simp only [find_ws_insensitive, Option.map_eq_some'] at h
  obtain ⟨⟨i, l⟩, hsf, hpair⟩ := h
  obtain ⟨hs, he⟩ := Prod.mk.injEq .. ▸ hpair
  subst hs; subst he
  obtain ⟨h1, h2⟩ := searchFrom_spec hsf
  refine ⟨Nat.le_add_right start i, ?_, ?_⟩
  · have hd : (normCrlf hay).drop (start + i)
        = ((normCrlf hay).drop start).drop i := by
      rw [List.drop_drop, Nat.add_comm]
    rw [hd]
    have : start + i + l - (start + i) = l := by omega
    rw [this]
    exact h1
  · intro p hp1 hp2
    have hq : p = start + (p - start) := by omega
    have hlt : p - start < i := by omega
    rw [hq, ← List.drop_drop]
    exact h2 (p - start) hlt

/-- Witness for `c3_amended`: the match of `"a b"` in `"zz a \n\t b q"`
from offset 1 is at `(3, 9)`, and the token pattern indeed matches there. -/
theorem c3_amended_witness :
    matchToks (tokenize (normCrlf ("a b".data)))
      ((normCrlf ("zz a \n\t b q".data)).drop 3) = some 6 :=
  ((c3_amended ("zz a \n\t b q".data) ("a b".data) 1 3 9 (by decide) (by decide)).2).1

/-- `rstrip` only removes characters from the end. -/
theorem rstrip_pre (s : List Char) : ∃ w, rstripList s ++ w = s := by
  refine ⟨(s.reverse.takeWhile isPyWs).reverse, ?_⟩
  rw [rstripList, ← List.reverse_append, List.takeWhile_append_dropWhile,
    List.reverse_reverse]

/-- The trim loop only removes characters from the end of its input. -/
theorem trimClosers_pre : ∀ (n : Nat) (s : List Char),
    ∃ w, (trimClosers n s).1 ++ w = s := by
  intro n
  induction n with
  | zero => intro s; exact ⟨[], List.append_nil _⟩
  | succ m ih =>
    intro s
    unfold trimClosers
    by_cases hlast : s.getLast? == some '\x7d'
    · rw [if_pos hlast]
      obtain ⟨w1, hw1⟩ := ih (rstripList s.dropLast)
      obtain ⟨w2, hw2⟩ := rstrip_pre s.dropLast
      have hne : s ≠ [] := by
        intro hnil; subst hnil; simp at hlast
      refine ⟨w1 ++ w2 ++ [s.getLast hne], ?_⟩
      simp only [← List.append_assoc]
      rw [hw1, hw2, List.dropLast_append_getLast]
    · rw [if_neg hlast]
      exact ⟨[], List.append_nil _⟩

/-- In the over-closed regime (`opens < closes`), `repair_braces` is the
trim-and-recheck computation, independently of the auto-fix flag. -/
theorem repair_lt (autoFix : Bool) (e : List Char)
    (h : opensOf e < closesOf e) :
    repair_braces autoFix e =
      (if (trimClosers (closesOf e - opensOf e) (rstripList e)).2
            = closesOf e - opensOf e ∧
          (brace_balance (trimClosers (closesOf e - opensOf e) (rstripList e)).1).1
            = true
       then some (trimClosers (closesOf e - opensOf e) (rstripList e)).1
       else none) := by
  unfold repair_braces
  simp only [brace_balance]
  have hbeq : (opensOf e == closesOf e) = false := by
    simp only [beq_eq_false_iff_ne, ne_eq]
    omega
  rw [if_neg (by simp [hbeq])]
  have h1 : ¬ (0 < ((opensOf e : Int) - (closesOf e : Int)) ∧ autoFix = true) := by
    intro hc
    omega
  rw [if_neg h1]
  have h2 : ((opensOf e : Int) - (closesOf e : Int)) < 0 := by omega
  rw [if_pos h2]
  have h3 : (-((opensOf e : Int) - (closesOf e : Int))).toNat
      = closesOf e - opensOf e := by omega
  rw [h3]

/-- Claim C6 as amended: for a block over-closed by `k = closes - opens`,
`validate_and_maybe_fix` (after the opening-shape check) trims exactly `k`
closing tokens from the end when they sit there contiguously — never
touching the interior — and returns the trimmed block exactly when the
re-checked balance reports balanced, failing otherwise; when fewer than `k`
closers sit at the end it always fails. -/
theorem c6_amended (autoFix : Bool) (e lit : List Char)
    (h : opensOf e < closesOf e)
    (hens : ensure_starts_with_if_block e lit = true) :
    (∀ t, trimClosers (closesOf e - opensOf e) (rstripList e)
        = (t, closesOf e - opensOf e) →
      validate_and_maybe_fix autoFix e lit
        = (if (brace_balance t).1 = true then some t else none) ∧
      ∃ r, t ++ r = rstripList e) ∧
    (∀ t j, trimClosers (closesOf e - opensOf e) (rstripList e) = (t, j) →
      j ≠ closesOf e - opensOf e →
      validate_and_maybe_fix autoFix e lit = none) := by
  have hv : validate_and_maybe_fix autoFix e lit = repair_braces autoFix e := by
    unfold validate_and_maybe_fix
    rw [if_pos hens]
  constructor
  · intro t ht
    constructor
    · rw [hv, repair_lt autoFix e h, ht]
      by_cases hb : (brace_balance t).1 = true
      · rw [if_pos hb, if_pos ⟨rfl, hb⟩]
      · rw [if_neg hb, if_neg (fun hc => hb hc.2)]
    · obtain ⟨w, hw⟩ := trimClosers_pre (closesOf e - opensOf e) (rstripList e)
      rw [ht] at hw
      exact ⟨w, hw⟩
  · intro t j ht hj
    rw [hv, repair_lt autoFix e h, ht]
    exact if_neg (fun hc => hj hc.1)

/-- Witness for `c6_amended`: a block over-closed by one token whose
surplus closer is contiguous at the end; the trim succeeds and the result
is returned. -/
theorem c6_witness :
    validate_and_maybe_fix true ("@if (x) \x7b\n\x7d\n\x7d".data) ("@if (x)".data)
      = (if (brace_balance ("@if (x) \x7b\n\x7d".data)).1 = true
         then some ("@if (x) \x7b\n\x7d".data) else none) :=
  (((c6_amended true ("@if (x) \x7b\n\x7d\n\x7d".data) ("@if (x)".data)
      (by decide) (by decide)).1) ("@if (x) \x7b\n\x7d".data) (by decide)).1

/-- Claim C9 as amended: in the over-closed regime the behavior of
`validate_and_maybe_fix` is identical for both values of the auto-repair
flag — only the appending repair consults it — and with the flag off it
still returns the trimmed block whenever the full trim succeeds and the
re-checked balance is balanced. -/
theorem c9_amended (e lit : List Char) (h : opensOf e < closesOf e) :
    validate_and_maybe_fix true e lit = validate_and_maybe_fix false e lit ∧
    (∀ t, ensure_starts_with_if_block e lit = true →
      trimClosers (closesOf e - opensOf e) (rstripList e)
        = (t, closesOf e - opensOf e) →
      (brace_balance t).1 = true →
      validate_and_maybe_fix false e lit = some t) := by
  constructor
  · unfold validate_and_maybe_fix
    by_cases hens : ensure_starts_with_if_block e lit = true
    · rw [if_pos hens, if_pos hens, repair_lt true e h, repair_lt false e h]
    · rw [if_neg hens, if_neg hens]
  · intro t hens ht hb
    have := (((c6_amended false e lit h hens).1) t ht).1
    rw [this, if_pos hb]

/-- Witness for `c9_amended`: with auto-repair disabled the surplus closer
is still trimmed and the trimmed block returned. -/
theorem c9_witness :
    validate_and_maybe_fix false ("@if (q) \x7b\n\x7d\n\x7d".data) ("@if (q)".data)
      = some ("@if (q) \x7b\n\x7d".data) :=
  ((c9_amended ("@if (q) \x7b\n\x7d\n\x7d".data) ("@if (q)".data) (by decide)).2)
    ("@if (q) \x7b\n\x7d".data) (by decide) (by decide) (by decide)

/-!
### Structure lemmas for `splitlinesPy`
-/

theorem splitlinesPy_ne_nil : ∀ {s : List Char}, s ≠ [] → splitlinesPy s ≠ [] := by
  intro s
  induction s using splitlinesPy.induct with
  | case1 => exact fun h => absurd rfl h
  | case2 c hc => intro _; rw [splitlinesPy.eq_2, if_pos hc]; simp
  | case3 c hc => intro _; rw [splitlinesPy.eq_2, if_neg hc]; simp
  | case4 c d rest hc hpair ih =>
    intro _; rw [splitlinesPy.eq_3, if_pos hc, if_pos hpair]; simp
  | case5 c d rest hc hpair ih =>
    intro _; rw [splitlinesPy.eq_3, if_pos hc, if_neg hpair]; simp
  | case6 c d rest hc hnil ih =>
    intro _; rw [splitlinesPy.eq_3, if_neg hc, hnil]; simp
  | case7 c d rest hc l ls hcons ih =>
    intro _; rw [splitlinesPy.eq_3, if_neg hc, hcons]; simp

/-- Lines produced by `splitlinesPy` contain no line-break character. -/
theorem splitlines_no_break :
    ∀ {s l : List Char}, l ∈ splitlinesPy s → ∀ c ∈ l, isLineBreak c = false := by
  intro s
  induction s using splitlinesPy.induct with
  | case1 => intro l hl; simp [splitlinesPy] at hl
  | case2 c hc =>
    intro l hl
    rw [splitlinesPy.eq_2, if_pos hc] at hl
    simp at hl
    subst hl; intro c hc'; simp at hc'
  | case3 c hc =>
    intro l hl
    rw [splitlinesPy.eq_2, if_neg hc] at hl
    simp at hl
    subst hl
    intro x hx
    simp at hx
    subst hx
    exact Bool.not_eq_true _ ▸ (by simpa using hc)
  | case4 c d rest hc hpair ih =>
    intro l hl
    rw [splitlinesPy.eq_3, if_pos hc, if_pos hpair] at hl
    rcases List.mem_cons.mp hl with h | h
    · subst h; intro c hc'; simp at hc'
    · exact ih h
  | case5 c d rest hc hpair ih =>
    intro l hl
    rw [splitlinesPy.eq_3, if_pos hc, if_neg hpair] at hl
    rcases List.mem_cons.mp hl with h | h
    · subst h; intro c hc'; simp at hc'
    · exact ih h
  | case6 c d rest hc hnil ih =>
    exact absurd hnil (splitlinesPy_ne_nil (by simp))
  | case7 c d rest hc l0 ls0 hcons ih =>
    intro l hl
    rw [splitlinesPy.eq_3, if_neg hc, hcons] at hl
    rcases List.mem_cons.mp hl with h | h
    · subst h
      intro x hx
      rcases List.mem_cons.mp hx with h' | h'
      · subst h'; simpa using hc
      · exact ih (by rw [hcons]; exact List.mem_cons_self _ _) x h'
    · exact ih (by rw [hcons]; exact List.mem_cons_of_mem _ h)

/-- A nonempty chunk without line breaks is a single line. -/
theorem splitlines_single : ∀ {l : List Char}, l ≠ [] →
    (∀ c ∈ l, isLineBreak c = false) → splitlinesPy l = [l] := by
  intro l
  induction l with
  | nil => exact fun h _ => absurd rfl h
  | cons x xs ih =>
    intro _ hnb
    have hx : isLineBreak x = false := hnb x (List.mem_cons_self _ _)
    cases xs with
    | nil => rw [splitlinesPy.eq_2, if_neg (by simp [hx])]
    | cons y ys =>
      have hrec : splitlinesPy (y :: ys) = [y :: ys] :=
        ih (by simp) (fun c hc => hnb c (List.mem_cons_of_mem _ hc))
      rw [splitlinesPy.eq_3, if_neg (by simp [hx]), hrec]


/-- A leading `'\n'` is a boundary producing an empty first line. -/
theorem splitlines_nl_cons (b : List Char) :
    splitlinesPy ('\n' :: b) = [] :: splitlinesPy b := by
  cases b with
  | nil => decide
  | cons y ys => rw [splitlinesPy.eq_3, if_pos (by decide), if_neg (by simp)]

/-- Splitting distributes over a `'\n'` boundary. -/
theorem splitlines_append_nl :
    ∀ (a : List Char) (b : List Char),
      splitlinesPy (a ++ '\n' :: b) = splitlinesPy (a ++ ['\n']) ++ splitlinesPy b := by
  intro a
  induction a using splitlinesPy.induct with
  | case1 =>
    intro b
    rw [List.nil_append, List.nil_append, splitlines_nl_cons,
      show splitlinesPy ['\n'] = [[]] from by decide]
    rfl
  | case2 c hc =>
    intro b
    by_cases hcr : c = '\r'
    · subst hcr
      rw [List.cons_append, List.nil_append, splitlinesPy.eq_3, if_pos (by decide),
        if_pos (by simp), List.cons_append, List.nil_append, splitlinesPy.eq_3,
        if_pos (by decide), if_pos (by simp)]
      simp [splitlinesPy]
    · rw [List.cons_append, List.nil_append, splitlinesPy.eq_3, if_pos hc,
        if_neg (by simp [hcr]), List.cons_append, List.nil_append,
        splitlinesPy.eq_3, if_pos hc, if_neg (by simp [hcr]), splitlines_nl_cons,
        splitlinesPy.eq_2, if_pos (by decide)]
      rfl
  | case3 c hc =>
    intro b
    rw [List.cons_append, List.nil_append, splitlinesPy.eq_3, if_neg hc,
      splitlines_nl_cons, List.cons_append, List.nil_append, splitlinesPy.eq_3,
      if_neg hc, splitlinesPy.eq_2, if_pos (by decide)]
    rfl
  | case4 c d rest hc hpair ih =>
    intro b
    rw [List.cons_append, List.cons_append, splitlinesPy.eq_3, if_pos hc, if_pos hpair,
      List.cons_append, List.cons_append, splitlinesPy.eq_3, if_pos hc, if_pos hpair,
      ih b, List.cons_append]
  | case5 c d rest hc hpair ih =>
    intro b
    simp only [List.cons_append] at ih ⊢
    rw [splitlinesPy.eq_3, if_pos hc, if_neg hpair,
      splitlinesPy.eq_3, if_pos hc, if_neg hpair, ih b, List.cons_append]
  | case6 c d rest hc hnil ih =>
    exact absurd hnil (splitlinesPy_ne_nil (by simp))
  | case7 c d rest hc l ls hcons ih =>
    intro b
    simp only [List.cons_append] at ih ⊢
    rcases heq : splitlinesPy (d :: (rest ++ ['\n'])) with _ | ⟨m, ms⟩
    · exact absurd heq (splitlinesPy_ne_nil (by simp))
    · rw [splitlinesPy.eq_3, if_neg hc, splitlinesPy.eq_3, if_neg hc, ih b, heq,
        List.cons_append]
      rfl

/-- Appending `'\n'` to a chunk not ending in a line break adds no line. -/
theorem splitlines_append_nl_last :
    ∀ (a : List Char), a ≠ [] →
      (∀ c, a.getLast? = some c → isLineBreak c = false) →
      splitlinesPy (a ++ ['\n']) = splitlinesPy a := by
  intro a
  induction a using splitlinesPy.induct with
  | case1 => exact fun h _ => absurd rfl h
  | case2 c hc =>
    intro _ hlast
    exact absurd hc (by simp [hlast c rfl])
  | case3 c hc =>
    intro _ _
    simp only [List.cons_append, List.nil_append]
    rw [splitlinesPy.eq_3, if_neg hc,
      show splitlinesPy ['\n'] = [[]] from by decide, splitlinesPy.eq_2, if_neg hc]
  | case4 c d rest hc hpair ih =>
    intro _ hlast
    obtain ⟨hcr, hdn⟩ := hpair
    subst hcr; subst hdn
    cases rest with
    | nil => exact absurd (hlast '\n' rfl) (by decide)
    | cons z zs =>
      simp only [List.cons_append]
      rw [splitlinesPy.eq_3, if_pos hc, if_pos (by simp),
        splitlinesPy.eq_3, if_pos hc, if_pos (by simp)]
      have := ih (by simp) (fun x hxl => hlast x (by
        rw [List.getLast?_cons_cons, List.getLast?_cons_cons]; exact hxl))
      simp only [List.cons_append] at this
      rw [this]
  | case5 c d rest hc hpair ih =>
    intro _ hlast
    simp only [List.cons_append]
    rw [splitlinesPy.eq_3, if_pos hc, if_neg hpair,
      splitlinesPy.eq_3, if_pos hc, if_neg hpair]
    have := ih (by simp) (fun x hxl => hlast x (by
      rw [List.getLast?_cons_cons]; exact hxl))
    simp only [List.cons_append] at this
    rw [this]
  | case6 c d rest hc hnil ih =>
    exact absurd hnil (splitlinesPy_ne_nil (by simp))
  | case7 c d rest hc l ls hcons ih =>
    intro _ hlast
    simp only [List.cons_append]
    rw [splitlinesPy.eq_3, if_neg hc, splitlinesPy.eq_3, if_neg hc]
    have := ih (by simp) (fun x hxl => hlast x (by
      rw [List.getLast?_cons_cons]; exact hxl))
    simp only [List.cons_append] at this
    rw [this]

/-- Appending a line-break character either adds nothing or one empty
line. -/
theorem splitlines_append_break :
    ∀ (d : List Char) (c : Char), isLineBreak c = true →
      splitlinesPy (d ++ [c]) = splitlinesPy d ∨
      splitlinesPy (d ++ [c]) = splitlinesPy d ++ [[]] := by
  intro d
  induction d using splitlinesPy.induct with
  | case1 =>
    intro c hc
    right
    rw [List.nil_append, splitlinesPy.eq_2, if_pos hc]
    rfl
  | case2 c0 hc0 =>
    intro c hc
    by_cases hpair : c0 = '\r' ∧ c = '\n'
    · left
      simp only [List.cons_append, List.nil_append]
      rw [splitlinesPy.eq_3, if_pos hc0, if_pos hpair, splitlinesPy.eq_2, if_pos hc0]
      rfl
    · right
      simp only [List.cons_append, List.nil_append]
      rw [splitlinesPy.eq_3, if_pos hc0, if_neg hpair, splitlinesPy.eq_2,
        if_pos hc, splitlinesPy.eq_2, if_pos hc0]
      rfl
  | case3 c0 hc0 =>
    intro c hc
    left
    simp only [List.cons_append, List.nil_append]
    rw [splitlinesPy.eq_3, if_neg hc0, splitlinesPy.eq_2, if_pos hc,
      splitlinesPy.eq_2, if_neg hc0]
  | case4 c0 d0 rest hc0 hpair ih =>
    intro c hc
    simp only [List.cons_append]
    rw [splitlinesPy.eq_3, if_pos hc0, if_pos hpair,
      splitlinesPy.eq_3, if_pos hc0, if_pos hpair]
    rcases ih c hc with h | h
    · left; rw [h]
    · right; rw [h]; rfl
  | case5 c0 d0 rest hc0 hpair ih =>
    intro c hc
    simp only [List.cons_append]
    rw [splitlinesPy.eq_3, if_pos hc0, if_neg hpair,
      splitlinesPy.eq_3, if_pos hc0, if_neg hpair]
    rcases ih c hc with h | h
    · left
      simp only [List.cons_append] at h
      rw [h]
    · right
      simp only [List.cons_append] at h
      rw [h]
      rfl
  | case6 c0 d0 rest hc0 hnil ih =>
    exact absurd hnil (splitlinesPy_ne_nil (by simp))
  | case7 c0 d0 rest hc0 l ls hcons ih =>
    intro c hc
    simp only [List.cons_append]
    rw [splitlinesPy.eq_3, if_neg hc0, splitlinesPy.eq_3, if_neg hc0, hcons]
    rcases ih c hc with h | h
    · left
      simp only [List.cons_append] at h
      rw [h, hcons]
    · right
      simp only [List.cons_append] at h
      rw [h, hcons]
      rfl

/-- Appending a non-break character either starts a fresh one-character
line (after a trailing boundary or on the empty text) or extends the last
line. -/
theorem splitlines_append_char :
    ∀ (d : List Char) (c : Char), isLineBreak c = false →
      splitlinesPy (d ++ [c]) = splitlinesPy d ++ [[c]] ∨
      ∃ L l, splitlinesPy d = L ++ [l] ∧
        splitlinesPy (d ++ [c]) = L ++ [l ++ [c]] := by
  intro d
  induction d using splitlinesPy.induct with
  | case1 =>
    intro c hc
    left
    rw [List.nil_append, splitlinesPy.eq_2, if_neg (by simp [hc])]
    rfl
  | case2 c0 hc0 =>
    intro c hc
    left
    have hpair : ¬ (c0 = '\r' ∧ c = '\n') := by
      rintro ⟨_, rfl⟩; exact absurd hc (by decide)
    simp only [List.cons_append, List.nil_append]
    rw [splitlinesPy.eq_3, if_pos hc0, if_neg hpair, splitlinesPy.eq_2,
      if_neg (by simp [hc]), splitlinesPy.eq_2, if_pos hc0]
    rfl
  | case3 c0 hc0 =>
    intro c hc
    right
    refine ⟨[], [c0], by rw [splitlinesPy.eq_2, if_neg hc0]; rfl, ?_⟩
    simp only [List.cons_append, List.nil_append]
    rw [splitlinesPy.eq_3, if_neg hc0, splitlinesPy.eq_2, if_neg (by simp [hc])]
  | case4 c0 d0 rest hc0 hpair ih =>
    intro c hc
    simp only [List.cons_append]
    rw [splitlinesPy.eq_3, if_pos hc0, if_pos hpair,
      splitlinesPy.eq_3, if_pos hc0, if_pos hpair]
    rcases ih c hc with h | ⟨L, l, hL, h⟩
    · left; rw [h]; rfl
    · right
      exact ⟨[] :: L, l, by rw [hL]; rfl, by rw [h]; rfl⟩
  | case5 c0 d0 rest hc0 hpair ih =>
    intro c hc
    simp only [List.cons_append]
    rw [splitlinesPy.eq_3, if_pos hc0, if_neg hpair,
      splitlinesPy.eq_3, if_pos hc0, if_neg hpair]
    rcases ih c hc with h | ⟨L, l, hL, h⟩
    · left
      simp only [List.cons_append] at h
      rw [h]
      rfl
    · right
      simp only [List.cons_append] at h
      exact ⟨[] :: L, l, by rw [hL]; rfl, by rw [h]; rfl⟩
  | case6 c0 d0 rest hc0 hnil ih =>
    exact absurd hnil (splitlinesPy_ne_nil (by simp))
  | case7 c0 d0 rest hc0 l0 ls0 hcons ih =>
    intro c hc
    simp only [List.cons_append]
    rw [splitlinesPy.eq_3, if_neg hc0, splitlinesPy.eq_3, if_neg hc0, hcons]
    rcases ih c hc with h | ⟨L, l, hL, h⟩
    · left
      simp only [List.cons_append] at h
      rw [h, hcons]
      rfl
    · simp only [List.cons_append] at h
      rw [h]
      rw [hcons] at hL
      right
      cases L with
      | nil =>
        simp only [List.nil_append] at hL ⊢
        obtain ⟨h1, h2⟩ := List.cons.injEq .. ▸ hL
        subst h1; subst h2
        exact ⟨[], c0 :: l0, rfl, by rfl⟩
      | cons m L2 =>
        obtain ⟨h1, h2⟩ := List.cons.injEq .. ▸ hL
        subst h1
        refine ⟨(c0 :: l0) :: L2, l, ?_, ?_⟩
        · rw [h2]; rfl
        · rfl

/-!
### Invariance of the line classification and the counted text under
trailing whitespace
-/

/-- Appending a character that cannot end the pattern does not change a
`startswith` test. -/
theorem startsWith_append_char :
    ∀ (p s : List Char) (c : Char), p.getLast? ≠ some c →
      startsWith p (s ++ [c]) = startsWith p s := by
  intro p
  induction p with
  | nil => intro s c _; rfl
  | cons a ps ih =>
    intro s c hlast
    cases s with
    | nil =>
      simp only [List.nil_append]
      cases ps with
      | nil =>
        have hac : (a == c) = false := by
          simp only [List.getLast?_singleton, ne_eq, Option.some.injEq] at hlast
          simp [hlast]
        simp [startsWith, hac]
      | cons b qs =>
        simp [startsWith]
    | cons x xs =>
      simp only [List.cons_append]
      cases ps with
      | nil =>
        simp [startsWith]
      | cons b qs =>
        have hlast' : (b :: qs).getLast? ≠ some c := by
          rwa [List.getLast?_cons_cons] at hlast
        simp only [startsWith]
        rw [ih xs c hlast']
/-- Appending a character that cannot end the pattern does not change a
substring test. -/
theorem containsSub_append_char :
    ∀ (s p : List Char) (c : Char), p.getLast? ≠ some c →
      containsSub p (s ++ [c]) = containsSub p s := by
  intro s
  induction s with
  | nil =>
    intro p c hlast
    cases p with
    | nil => rfl
    | cons a ps =>
      show (startsWith (a :: ps) ([] ++ [c]) || containsSub (a :: ps) [])
          = containsSub (a :: ps) []
      rw [startsWith_append_char (a :: ps) [] c hlast]
      simp [startsWith, containsSub]
  | cons x xs ih =>
    intro p c hlast
    show (startsWith p ((x :: xs) ++ [c]) || containsSub p (xs ++ [c]))
        = (startsWith p (x :: xs) || containsSub p xs)
    rw [startsWith_append_char p (x :: xs) c hlast, ih p c hlast]
/-- Appending a trailing whitespace character does not change whether a
line is structurally significant. -/
theorem is_code_line_append_ws (l : List Char) (c : Char) (hc : isPyWs c = true) :
    is_code_line (l ++ [c]) = is_code_line l := by
  have hws : ∀ (p : List Char) (d : Char), p.getLast? = some d →
      isPyWs d = false → p.getLast? ≠ some c := by
    intro p d hd hnw heq
    rw [hd] at heq
    have hdc : d = c := by
      injection heq
    rw [hdc] at hnw
    rw [hnw] at hc
    exact Bool.false_ne_true hc
  simp only [is_code_line]
  by_cases hall : List.dropWhile isPyWs l = []
  · have h2 : List.dropWhile isPyWs (l ++ [c]) = [] := by
      rw [List.dropWhile_eq_nil_iff] at hall ⊢
      intro x hx
      rcases List.mem_append.mp hx with h | h
      · exact hall x h
      · rw [List.mem_singleton] at h; subst h; exact hc
    rw [hall, h2]
  · rw [List.dropWhile_append, if_neg (by simpa using hall)]
    rw [startsWith_append_char _ _ _ (hws _ '@' (by decide) (by decide)),
      startsWith_append_char _ _ _ (hws _ '\x7b' (by decide) (by decide)),
      startsWith_append_char _ _ _ (hws _ '\x7d' (by decide) (by decide)),
      containsSub_append_char _ _ _ (hws _ 'f' (by decide) (by decide)),
      containsSub_append_char _ _ _ (hws _ 'h' (by decide) (by decide)),
      containsSub_append_char _ _ _ (hws _ 'h' (by decide) (by decide))]

/-- `"\n".join` over a list extended on the right. -/
theorem joinLines_append_last :
    ∀ (L : List (List Char)), L ≠ [] → ∀ (b : List Char),
      joinLines (L ++ [b]) = joinLines L ++ '\n' :: b
  | [], h, _ => absurd rfl h
  | [x], _, b => by simp [joinLines]
  | x :: y :: rest, _, b => by
    have ih := joinLines_append_last (y :: rest) (by simp) b
    simp only [List.cons_append]
    rw [show joinLines (x :: y :: (rest ++ [b]))
          = x ++ '\n' :: joinLines (y :: (rest ++ [b])) from rfl,
      show joinLines (x :: y :: rest) = x ++ '\n' :: joinLines (y :: rest) from rfl]
    simp only [List.cons_append] at ih
    rw [ih, List.append_assoc]
    rfl

/-- Extending the final element of the joined list appends at the end. -/
theorem joinLines_extend_last :
    ∀ (L : List (List Char)) (l u : List Char),
      joinLines (L ++ [l ++ u]) = joinLines (L ++ [l]) ++ u := by
  intro L l u
  cases L with
  | nil => simp [joinLines]
  | cons x rest =>
    rw [joinLines_append_last (x :: rest) (by simp) (l ++ u),
      joinLines_append_last (x :: rest) (by simp) l]
    simp

theorem splitOnChar_ne_nil : ∀ (c : Char) (s : List Char), splitOnChar c s ≠ [] := by
  intro c s
  induction s using splitOnChar.induct c with
  | case1 => simp [splitOnChar]
  | case2 x xs hx ih => rw [splitOnChar, if_pos hx]; simp
  | case3 x xs hx hnil ih => exact absurd hnil ih
  | case4 x xs hx p ps hcons ih =>
    rw [splitOnChar, if_neg hx, hcons]
    simp

/-- Without the separator, splitting yields the single piece. -/
theorem splitOnChar_no_sep (c : Char) :
    ∀ (u : List Char), c ∉ u → splitOnChar c u = [u] := by
  intro u
  induction u with
  | nil => intro _; rfl
  | cons y ys ih =>
    intro hu
    rw [splitOnChar,
      if_neg (by simp only [beq_iff_eq]; rintro rfl; exact hu (List.mem_cons_self _ _)),
      ih (fun hm => hu (List.mem_cons_of_mem _ hm))]

/-- Appending text without the separator extends the final piece. -/
theorem splitOnChar_append :
    ∀ (c : Char) (s u : List Char), c ∉ u →
      ∃ I l, splitOnChar c s = I ++ [l] ∧ splitOnChar c (s ++ u) = I ++ [l ++ u] := by
  intro c s
  induction s using splitOnChar.induct c with
  | case1 =>
    intro u hu
    refine ⟨[], [], rfl, ?_⟩
    rw [List.nil_append, List.nil_append, splitOnChar_no_sep c u hu]
  | case2 x xs hx ih =>
    intro u hu
    obtain ⟨I, l, hI, h⟩ := ih u hu
    refine ⟨[] :: I, l, ?_, ?_⟩
    · rw [splitOnChar, if_pos hx, hI]; rfl
    · rw [List.cons_append, splitOnChar, if_pos hx, h]; rfl
  | case3 x xs hx hnil ih =>
    exact absurd hnil (splitOnChar_ne_nil c xs)
  | case4 x xs hx p ps hcons ih =>
    intro u hu
    obtain ⟨I, l, hI, h⟩ := ih u hu
    rw [hcons] at hI
    cases I with
    | nil =>
      simp only [List.nil_append] at hI
      obtain ⟨h1, h2⟩ := List.cons.injEq .. ▸ hI
      subst h1; subst h2
      refine ⟨[], x :: p, ?_, ?_⟩
      · rw [splitOnChar, if_neg hx, hcons]; rfl
      · rw [List.cons_append, splitOnChar, if_neg hx, h]
        simp only [List.cons_append]; rfl
    | cons m I2 =>
      obtain ⟨h1, h2⟩ := List.cons.injEq .. ▸ hI
      subst h1
      refine ⟨(x :: p) :: I2, l, ?_, ?_⟩
      · rw [splitOnChar, if_neg hx, hcons, h2]; rfl
      · rw [List.cons_append, splitOnChar, if_neg hx, h]
        simp only [List.cons_append]

/-- Extending the final piece extends the reassembled text. -/
theorem rpAux_extend (ch : Char) :
    ∀ (I : List (List Char)) (l u : List Char),
      rpAux ch (I ++ [l ++ u]) = rpAux ch (I ++ [l]) ++ u
  | [], l, u => by simp [rpAux]
  | [p], l, u => by
    show rpAux ch [p, l ++ u] = rpAux ch [p, l] ++ u
    rw [show rpAux ch [p, l ++ u] = p ++ ch :: (l ++ u) from rfl,
      show rpAux ch [p, l] = p ++ ch :: l from rfl]
    simp
  | p :: q :: rest, l, u => by
    have ih := rpAux_extend ch rest l u
    show rpAux ch (p :: q :: (rest ++ [l ++ u])) = rpAux ch (p :: q :: (rest ++ [l])) ++ u
    rw [show rpAux ch (p :: q :: (rest ++ [l ++ u]))
          = p ++ rpAux ch (rest ++ [l ++ u]) from by
        cases rest <;> rfl,
      show rpAux ch (p :: q :: (rest ++ [l]))
          = p ++ rpAux ch (rest ++ [l]) from by
        cases rest <;> rfl,
      ih, List.append_assoc]

/-- `re.sub`-style pair deletion leaves a separator-free suffix intact. -/
theorem removePairs_append (ch : Char) (t u : List Char) (hu : ch ∉ u) :
    removePairs ch (t ++ u) = removePairs ch t ++ u := by
  obtain ⟨I, l, hI, h⟩ := splitOnChar_append ch t u hu
  unfold removePairs
  rw [hI, h, rpAux_extend]

/-- A `'/'`-free text passes the line-comment stripper unchanged (outside a
comment). -/
theorem rlcGo_no_slash :
    ∀ (b : Bool) (z : List Char), b = false → ('/' : Char) ∉ z → rlcGo b z = z := by
  intro b z
  induction b, z using rlcGo.induct with
  | case1 x => intro _ _; exact rlcGo.eq_1 x
  | case2 rest ih => intro h _; exact absurd h (by simp)
  | case3 c rest hc ih => intro h _; exact absurd h (by simp)
  | case4 c => intro _ _; rfl
  | case5 c d rest hpair ih =>
    intro _ hz
    exact absurd (hpair.1 ▸ List.mem_cons_self _ _) hz
  | case6 c d rest hpair ih =>
    intro _ hz
    rw [rlcGo.eq_4, if_neg hpair, ih rfl (fun hm => hz (List.mem_cons_of_mem _ hm))]

theorem rlcGo_true_nl (z : List Char) : rlcGo true ('\n' :: z) = '\n' :: rlcGo false z := by
  rw [rlcGo.eq_2]
  rw [if_pos rfl]

theorem rlcGo_false_nl (z : List Char) : rlcGo false ('\n' :: z) = '\n' :: rlcGo false z := by
  cases z with
  | nil => rfl
  | cons y ys => rw [rlcGo.eq_4, if_neg (by simp)]

/-- Line comments do not cross a `'\n'` boundary: the stripper distributes
over it. -/
theorem rlcGo_split_nl :
    ∀ (b : Bool) (w : List Char), ∀ z : List Char,
      rlcGo b (w ++ '\n' :: z) = rlcGo b (w ++ ['\n']) ++ rlcGo false z := by
  intro b w
  induction b, w using rlcGo.induct with
  | case1 x =>
    intro z
    cases x with
    | true =>
      rw [List.nil_append, List.nil_append, rlcGo_true_nl, rlcGo_true_nl, rlcGo.eq_1]
      rfl
    | false =>
      rw [List.nil_append, List.nil_append, rlcGo_false_nl, rlcGo_false_nl, rlcGo.eq_1]
      rfl
  | case2 rest ih =>
    intro z
    simp only [List.cons_append]
    rw [rlcGo_true_nl, rlcGo_true_nl, ih z, List.cons_append]
  | case3 c rest hc ih =>
    intro z
    simp only [List.cons_append]
    rw [rlcGo.eq_2, if_neg hc, rlcGo.eq_2, if_neg hc, ih z]
  | case4 c =>
    intro z
    simp only [List.cons_append, List.nil_append]
    rw [rlcGo.eq_4, if_neg (by rintro ⟨_, h⟩; exact absurd h (by decide)),
      rlcGo_false_nl, rlcGo.eq_4, if_neg (by rintro ⟨_, h⟩; exact absurd h (by decide)),
      rlcGo_false_nl, rlcGo.eq_1]
    rfl
  | case5 c d rest hpair ih =>
    intro z
    simp only [List.cons_append]
    rw [rlcGo.eq_4, if_pos hpair, rlcGo.eq_4, if_pos hpair, ih z]
  | case6 c d rest hpair ih =>
    intro z
    simp only [List.cons_append]
    have e1 : d :: (rest ++ '\n' :: z) = (d :: rest) ++ '\n' :: z := rfl
    have e2 : d :: (rest ++ ['\n']) = (d :: rest) ++ ['\n'] := rfl
    rw [rlcGo.eq_4, if_neg hpair, rlcGo.eq_4, if_neg hpair]
    have := ih z
    simp only [List.cons_append] at this
    rw [this, List.cons_append]

/-- Appending one character that is neither `'/'` nor `'\n'` either
survives stripping at the very end or is swallowed by an unterminated
line comment. -/
theorem rlcGo_append_char (c : Char) (hc1 : c ≠ '/') (hc2 : c ≠ '\n') :
    ∀ (b : Bool) (w : List Char),
      rlcGo b (w ++ [c]) = rlcGo b w ++ [c] ∨ rlcGo b (w ++ [c]) = rlcGo b w := by
  intro b w
  induction b, w using rlcGo.induct with
  | case1 x =>
    cases x with
    | true =>
      right
      rw [List.nil_append, rlcGo.eq_2, if_neg hc2, rlcGo.eq_1]
    | false =>
      left
      rw [List.nil_append, rlcGo.eq_3, rlcGo.eq_1]
      rfl
  | case2 rest ih =>
    simp only [List.cons_append]
    rw [rlcGo_true_nl, rlcGo_true_nl]
    rcases ih with h | h
    · left; rw [h]; rfl
    · right; rw [h]
  | case3 c0 rest hc0 ih =>
    simp only [List.cons_append]
    rw [rlcGo.eq_2, if_neg hc0, rlcGo.eq_2, if_neg hc0]
    exact ih
  | case4 c0 =>
    left
    simp only [List.cons_append, List.nil_append]
    rw [rlcGo.eq_4, if_neg (by rintro ⟨_, h⟩; exact hc1 h), rlcGo.eq_3, rlcGo.eq_3]
    rfl
  | case5 c0 d rest hpair ih =>
    simp only [List.cons_append]
    rw [rlcGo.eq_4, if_pos hpair, rlcGo.eq_4, if_pos hpair]
    exact ih
  | case6 c0 d rest hpair ih =>
    simp only [List.cons_append]
    rw [rlcGo.eq_4, if_neg hpair, rlcGo.eq_4, if_neg hpair]
    simp only [List.cons_append] at ih
    rcases ih with h | h
    · left; rw [h]; rfl
    · right; rw [h]

/-- A trailing whitespace character (not a line break) does not change any
non-whitespace character count of the comment-stripped text. -/
theorem count_strip_append_char (j : List Char) (c : Char)
    (hc : isPyWs c = true) (hnb : isLineBreak c = false)
    (a : Char) (ha : isPyWs a = false) :
    (strip_razor_comments (j ++ [c])).count a = (strip_razor_comments j).count a := by
  have hat : c ≠ '@' := by rintro rfl; exact absurd hc (by decide)
  have hsl : c ≠ '/' := by rintro rfl; exact absurd hc (by decide)
  have hnl : c ≠ '\n' := by rintro rfl; exact absurd hnb (by decide)
  have hac : a ≠ c := by rintro rfl; rw [hc] at ha; exact Bool.true_eq_false ▸ ha
  unfold strip_razor_comments removeLineComments
  rw [removePairs_append '@' j [c] (by simpa using fun h => hat h.symm),
    removePairs_append '/' (removePairs '@' j) [c] (by simpa using fun h => hsl h.symm)]
  rcases rlcGo_append_char c hsl hnl false (removePairs '/' (removePairs '@' j))
      with h | h
  · rw [h, List.count_append]
    have : ([c].count a) = 0 := by
      simp [List.count_singleton', hac]
    rw [this, Nat.add_zero]
  · rw [h]

/-- Appending one whitespace character to a block leaves every
non-whitespace character count of its counted text unchanged. -/
theorem count_codeText_append_ws (d : List Char) (c : Char)
    (hc : isPyWs c = true) (a : Char) (ha : isPyWs a = false) :
    (codeText (d ++ [c])).count a = (codeText d).count a := by
  by_cases hb : isLineBreak c = true
  · rcases splitlines_append_break d c hb with h | h
    · unfold codeText
      rw [h]
    · unfold codeText
      rw [h, List.filter_append]
      have : List.filter is_code_line [([] : List Char)] = [] := by decide
      rw [this, List.append_nil]
  · have hnb : isLineBreak c = false := by simpa using hb
    rcases splitlines_append_char d c hnb with h | ⟨L, l, hL, h⟩
    · unfold codeText
      rw [h, List.filter_append]
      have hone : List.filter is_code_line [[c]] = [] := by
        have := is_code_line_append_ws [] c hc
        simp only [List.nil_append] at this
        rw [show is_code_line [] = false from by decide] at this
        simp [List.filter, this]
      rw [hone, List.append_nil]
    · unfold codeText
      rw [h, hL, List.filter_append, List.filter_append]
      by_cases hcl : is_code_line l = true
      · have hcl2 : is_code_line (l ++ [c]) = true := by
          rw [is_code_line_append_ws l c hc]; exact hcl
        rw [show List.filter is_code_line [l] = [l] from by simp [List.filter, hcl],
          show List.filter is_code_line [l ++ [c]] = [l ++ [c]] from by
            simp [List.filter, hcl2],
          joinLines_extend_last]
        exact count_strip_append_char _ c hc hnb a ha
      · have hcl' : is_code_line l = false := by simpa using hcl
        have hcl2 : is_code_line (l ++ [c]) = false := by
          rw [is_code_line_append_ws l c hc]; exact hcl'
        rw [show List.filter is_code_line [l] = [] from by simp [List.filter, hcl'],
          show List.filter is_code_line [l ++ [c]] = [] from by simp [List.filter, hcl2]]

/-- Appending a whitespace run keeps the counted text's counts. -/
theorem count_codeText_append_run (d : List Char) :
    ∀ (w : List Char), (∀ x ∈ w, isPyWs x = true) →
      ∀ (a : Char), isPyWs a = false →
      (codeText (d ++ w)).count a = (codeText d).count a := by
  intro w
  induction w using List.reverseRecOn with
  | nil => intro _ a _; rw [List.append_nil]
  | append_singleton w0 c ih =>
    intro hall a ha
    rw [← List.append_assoc]
    rw [count_codeText_append_ws (d ++ w0) c
      (hall c (by simp)) a ha]
    exact ih (fun x hx => hall x (by simp [hx])) a ha

/-- `rstrip` does not change the counted text's counts. -/
theorem count_codeText_rstrip (e : List Char) (a : Char) (ha : isPyWs a = false) :
    (codeText (rstripList e)).count a = (codeText e).count a := by
  have hdec : e = rstripList e ++ (e.reverse.takeWhile isPyWs).reverse := by
    rw [rstripList, ← List.reverse_append, List.takeWhile_append_dropWhile,
      List.reverse_reverse]
  have hall : ∀ x ∈ (e.reverse.takeWhile isPyWs).reverse, isPyWs x = true := by
    intro x hx
    rw [List.mem_reverse] at hx
    exact List.mem_takeWhile_imp hx
  conv_rhs => rw [hdec]
  rw [count_codeText_append_run (rstripList e) _ hall a ha]

theorem dropWhile_head_false {p : Char → Bool} :
    ∀ {L : List Char} {y : Char} {ys : List Char},
      List.dropWhile p L = y :: ys → p y = false := by
  intro L
  induction L with
  | nil => intro y ys h; simp at h
  | cons x xs ih =>
    intro y ys h
    rw [List.dropWhile_cons] at h
    by_cases hx : p x = true
    · rw [if_pos hx] at h
      exact ih h
    · rw [if_neg hx] at h
      obtain ⟨h1, _⟩ := List.cons.injEq .. ▸ h
      rw [← h1]
      simpa using hx

/-- The last character of an `rstrip`ped text is never whitespace. -/
theorem rstrip_last_not_ws (e : List Char) :
    ∀ m, (rstripList e).getLast? = some m → isPyWs m = false := by
  intro m hm
  unfold rstripList at hm
  rw [List.getLast?_reverse] at hm
  cases hL : List.dropWhile isPyWs e.reverse with
  | nil => rw [hL] at hm; simp at hm
  | cons y ys =>
    rw [hL] at hm
    simp only [List.head?_cons, Option.some.injEq] at hm
    rw [← hm]
    exact dropWhile_head_false hL

/-- A trailing `'\n'` always survives the line-comment stripper. -/
theorem rlcGo_append_nl :
    ∀ (b : Bool) (w : List Char), rlcGo b (w ++ ['\n']) = rlcGo b w ++ ['\n'] := by
  intro b w
  induction b, w using rlcGo.induct with
  | case1 x =>
    cases x with
    | true => rw [List.nil_append, rlcGo_true_nl, rlcGo.eq_1]; rfl
    | false => rw [List.nil_append, rlcGo_false_nl, rlcGo.eq_1]; rfl
  | case2 rest ih =>
    simp only [List.cons_append]
    rw [rlcGo_true_nl, rlcGo_true_nl, ih]
    rfl
  | case3 c rest hc ih =>
    simp only [List.cons_append]
    rw [rlcGo.eq_2, if_neg hc, rlcGo.eq_2, if_neg hc, ih]
  | case4 c =>
    simp only [List.cons_append, List.nil_append]
    rw [rlcGo.eq_4, if_neg (by rintro ⟨_, h⟩; exact absurd h (by decide)),
      rlcGo_false_nl, rlcGo.eq_3, rlcGo.eq_1]
    rfl
  | case5 c d rest hpair ih =>
    simp only [List.cons_append]
    rw [rlcGo.eq_4, if_pos hpair, rlcGo.eq_4, if_pos hpair, ih]
  | case6 c d rest hpair ih =>
    simp only [List.cons_append]
    rw [rlcGo.eq_4, if_neg hpair, rlcGo.eq_4, if_neg hpair]
    simp only [List.cons_append] at ih
    rw [ih]
    rfl

/-- A nonempty run of closing braces is a structurally significant line. -/
theorem is_code_line_braces (k : Nat) :
    is_code_line (List.replicate (k + 1) '\x7d') = true := by
  rw [List.replicate_succ]
  simp only [is_code_line, List.dropWhile_cons]
  rw [if_neg (by decide)]
  simp [startsWith]

/-- Comment stripping passes a trailing newline-plus-brace-run through. -/
theorem strip_append_nl_tail (j z : List Char)
    (hat : ('@' : Char) ∉ z) (hsl : ('/' : Char) ∉ z) :
    strip_razor_comments (j ++ '\n' :: z) = strip_razor_comments j ++ '\n' :: z := by
  unfold strip_razor_comments removeLineComments
  rw [removePairs_append '@' j ('\n' :: z) (by
      simp only [List.mem_cons]
      rintro (h | h)
      · exact absurd h (by decide)
      · exact hat h),
    removePairs_append '/' (removePairs '@' j) ('\n' :: z) (by
      simp only [List.mem_cons]
      rintro (h | h)
      · exact absurd h (by decide)
      · exact hsl h),
    rlcGo_split_nl false _ z, rlcGo_append_nl false _,
    rlcGo_no_slash false z rfl hsl, List.append_assoc]
  rfl

/-- Counted-text counts of the repaired block: opens unchanged, closes
increased by exactly the number of appended braces. -/
theorem counts_of_fixed (e : List Char) (k : Nat) (hk : 0 < k)
    (hne : opensOf e ≠ 0 ∨ closesOf e ≠ 0) :
    opensOf (rstripList e ++ '\n' :: (List.replicate k '\x7d' ++ ['\n']))
        = opensOf e ∧
    closesOf (rstripList e ++ '\n' :: (List.replicate k '\x7d' ++ ['\n']))
        = closesOf e + k := by
  have hbrne : List.replicate k '\x7d' ≠ ([] : List Char) :=
    List.ne_nil_of_length_pos (by simpa using hk)
  have hbrnb : ∀ x ∈ List.replicate k '\x7d', isLineBreak x = false := by
    intro x hx
    rw [List.eq_of_mem_replicate hx]
    decide
  have he'ne : rstripList e ≠ [] := by
    intro hnil
    have h0 : ∀ a, isPyWs a = false → (codeText e).count a = 0 := by
      intro a ha
      rw [← count_codeText_rstrip e a ha, hnil]
      rfl
    rcases hne with h | h
    · exact h (h0 '\x7b' (by decide))
    · exact h (h0 '\x7d' (by decide))
  have hsplit : splitlinesPy (rstripList e ++ '\n' :: (List.replicate k '\x7d' ++ ['\n']))
      = splitlinesPy (rstripList e) ++ [List.replicate k '\x7d'] := by
    rw [splitlines_append_nl (rstripList e) (List.replicate k '\x7d' ++ ['\n']),
      splitlines_append_nl_last (rstripList e) he'ne
        (fun x hx => by
          have := rstrip_last_not_ws e x hx
          exact (Bool.eq_false_iff).mpr fun hb =>
            (Bool.eq_false_iff).mp this (ws_of_lineBreak hb)),
      splitlines_append_nl_last (List.replicate k '\x7d') hbrne
        (fun x hx => by
          have hmem : x ∈ List.replicate k '\x7d' := by
            obtain ⟨h9, heq⟩ := List.mem_getLast?_eq_getLast (Option.mem_def.mpr hx)
            rw [heq]
            exact List.getLast_mem h9
          exact hbrnb x hmem),
      splitlines_single hbrne hbrnb]
  have hbrcode : is_code_line (List.replicate k '\x7d') = true := by
    obtain ⟨j, rfl⟩ : ∃ j, k = j + 1 := ⟨k - 1, by omega⟩
    exact is_code_line_braces j
  have hfilter : (splitlinesPy (rstripList e) ++ [List.replicate k '\x7d']).filter
      is_code_line
      = (splitlinesPy (rstripList e)).filter is_code_line ++ [List.replicate k '\x7d'] := by
    rw [List.filter_append]
    congr 1
    simp [List.filter, hbrcode]
  by_cases hCL : (splitlinesPy (rstripList e)).filter is_code_line = []
  · exfalso
    have h0 : ∀ a, isPyWs a = false → (codeText e).count a = 0 := by
      intro a ha
      rw [← count_codeText_rstrip e a ha]
      unfold codeText
      rw [hCL]
      rfl
    rcases hne with h | h
    · exact h (h0 '\x7b' (by decide))
    · exact h (h0 '\x7d' (by decide))
  · have hjoin : joinLines ((splitlinesPy (rstripList e)).filter is_code_line
        ++ [List.replicate k '\x7d'])
        = joinLines ((splitlinesPy (rstripList e)).filter is_code_line)
          ++ '\n' :: List.replicate k '\x7d' :=
      joinLines_append_last _ hCL _
    have hstrip : codeText (rstripList e ++ '\n' :: (List.replicate k '\x7d' ++ ['\n']))
        = codeText (rstripList e) ++ '\n' :: List.replicate k '\x7d' := by
      unfold codeText
      rw [hsplit, hfilter, hjoin, strip_append_nl_tail _ _
        (by intro hm; exact absurd (List.eq_of_mem_replicate hm) (by decide))
        (by intro hm; exact absurd (List.eq_of_mem_replicate hm) (by decide))]
    constructor
    · unfold opensOf
      rw [hstrip, List.count_append]
      have : List.count '\x7b' ('\n' :: List.replicate k '\x7d') = 0 := by
        rw [List.count_cons]
        rw [List.count_replicate]
        simp
      rw [this, Nat.add_zero]
      exact count_codeText_rstrip e '\x7b' (by decide)
    · unfold closesOf
      rw [hstrip, List.count_append]
      have : List.count '\x7d' ('\n' :: List.replicate k '\x7d') = k := by
        rw [List.count_cons]
        rw [List.count_replicate]
        simp
      rw [this, count_codeText_rstrip e '\x7d' (by decide)]

/-- Claim C5: for a block under-closed by `k = opens - closes > 0` with
auto-repair permitted, the repair appends exactly `k` closing braces (on a
fresh line after trimming trailing whitespace, with a final newline) and
the re-checked `brace_balance` of the result is balanced, so the repaired
block — never an unbalanced one — is returned; through
`validate_and_maybe_fix` the same block is returned once the opening-shape
check passes. -/
theorem c5_append_repair (e : List Char) (h : closesOf e < opensOf e) :
    repair_braces true e
      = some (rstripList e
          ++ '\n' :: (List.replicate (opensOf e - closesOf e) '\x7d' ++ ['\n'])) ∧
    (brace_balance (rstripList e
        ++ '\n' :: (List.replicate (opensOf e - closesOf e) '\x7d' ++ ['\n']))).1
      = true ∧
    (∀ lit, ensure_starts_with_if_block e lit = true →
      validate_and_maybe_fix true e lit
        = some (rstripList e
            ++ '\n' :: (List.replicate (opensOf e - closesOf e) '\x7d' ++ ['\n']))) := by
  have hk : 0 < opensOf e - closesOf e := by omega
  have hne : opensOf e ≠ 0 ∨ closesOf e ≠ 0 := by left; omega
  obtain ⟨ho, hcc⟩ := counts_of_fixed e (opensOf e - closesOf e) hk hne
  have hbal : (brace_balance (rstripList e
      ++ '\n' :: (List.replicate (opensOf e - closesOf e) '\x7d' ++ ['\n']))).1
      = true := by
    simp only [brace_balance]
    rw [ho, hcc]
    simp only [beq_iff_eq]
    omega
  have hrep : repair_braces true e
      = some (rstripList e
          ++ '\n' :: (List.replicate (opensOf e - closesOf e) '\x7d' ++ ['\n'])) := by
    unfold repair_braces
    simp only [brace_balance]
    rw [if_neg (by
      simp only [beq_iff_eq]
      omega)]
    rw [if_pos (by
      refine ⟨?_, trivial⟩
      have : (closesOf e : Int) < (opensOf e : Int) := by exact_mod_cast h
      omega)]
    have h3 : (((opensOf e : Int) - (closesOf e : Int))).toNat
        = opensOf e - closesOf e := by omega
    rw [h3]
    simp only [brace_balance] at hbal
    rw [if_pos hbal]
  refine ⟨hrep, hbal, fun lit hens => ?_⟩
  unfold validate_and_maybe_fix
  rw [if_pos hens, hrep]

/-- Witness for `c5_append_repair`: a block with two opens and one close
gets exactly one closing brace appended and balances. -/
theorem c5_witness :
    repair_braces true ("@if (x) \x7b\n\x7b\n\x7d".data)
      = some (rstripList ("@if (x) \x7b\n\x7b\n\x7d".data)
          ++ '\n' :: (List.replicate (opensOf ("@if (x) \x7b\n\x7b\n\x7d".data)
              - closesOf ("@if (x) \x7b\n\x7b\n\x7d".data)) '\x7d' ++ ['\n'])) :=
  (c5_append_repair ("@if (x) \x7b\n\x7b\n\x7d".data) (by decide)).1

/-!
### Idempotence infrastructure for `_strip_leading_noise`
-/

theorem dropWhileL_head_false {α : Type} {p : α → Bool} :
    ∀ {L : List α} {y : α} {ys : List α},
      List.dropWhile p L = y :: ys → p y = false := by
  intro L
  induction L with
  | nil => intro y ys h; simp at h
  | cons x xs ih =>
    intro y ys h
    rw [List.dropWhile_cons] at h
    by_cases hx : p x = true
    · rw [if_pos hx] at h
      exact ih h
    · rw [if_neg hx] at h
      obtain ⟨h1, _⟩ := List.cons.injEq .. ▸ h
      rw [← h1]
      simpa using hx

theorem dropWhileL_suffix {α : Type} (p : α → Bool) :
    ∀ (l : List α), ∃ n, List.dropWhile p l = l.drop n := by
  intro l
  induction l with
  | nil => exact ⟨0, rfl⟩
  | cons x xs ih =>
    rw [List.dropWhile_cons]
    by_cases hx : p x = true
    · rw [if_pos hx]
      obtain ⟨n, hn⟩ := ih
      exact ⟨n + 1, hn⟩
    · rw [if_neg hx]
      exact ⟨0, rfl⟩

theorem dropWhileL_length_le {α : Type} (p : α → Bool) :
    ∀ (l : List α), (List.dropWhile p l).length ≤ l.length := by
  intro l
  obtain ⟨n, hn⟩ := dropWhileL_suffix p l
  rw [hn, List.length_drop]
  omega

theorem findCloserIdx_lt (n : List Char) :
    ∀ (ls : List (List Char)) (j : Nat), findCloserIdx n ls = some j → j < ls.length := by
  intro ls
  induction ls with
  | nil => intro j h; simp [findCloserIdx] at h
  | cons l rest ih =>
    intro j h
    rw [findCloserIdx] at h
    by_cases hc : containsSub n l = true
    · rw [if_pos hc] at h
      injection h with h
      simp only [List.length_cons]
      omega
    · rw [if_neg hc] at h
      simp only [Option.map_eq_some'] at h
      obtain ⟨j', hj', rfl⟩ := h
      have := ih j' hj'
      simp only [List.length_cons]
      omega

theorem stripNoiseGoF_nil : ∀ (f : Nat), stripNoiseGoF f [] = [] := by
  intro f
  cases f with
  | zero => rfl
  | succ m => rfl

/-- The fuel is irrelevant once it covers the number of lines. -/
theorem stripNoiseGoF_fuel :
    ∀ (f1 : Nat) (ls : List (List Char)) (f2 : Nat),
      ls.length ≤ f1 → ls.length ≤ f2 →
      stripNoiseGoF f1 ls = stripNoiseGoF f2 ls := by
  intro f1
  induction f1 with
  | zero =>
    intro ls f2 h1 _
    have : ls = [] := List.eq_nil_of_length_eq_zero (Nat.le_zero.mp h1)
    subst this
    rw [stripNoiseGoF_nil, stripNoiseGoF_nil]
  | succ m ih =>
    intro ls f2 h1 h2
    cases ls with
    | nil => rw [stripNoiseGoF_nil, stripNoiseGoF_nil]
    | cons l rest =>
      cases f2 with
      | zero => simp at h2
      | succ m2 =>
        rw [stripNoiseGoF.eq_3, stripNoiseGoF.eq_3]
        have hb : ∀ j, j < (l :: rest).length →
            (dropBlanks (List.drop (j + 1) (l :: rest))).length ≤ m ∧
            (dropBlanks (List.drop (j + 1) (l :: rest))).length ≤ m2 := by
          intro j hj
          have hd := dropWhileL_length_le isBlankLine (List.drop (j + 1) (l :: rest))
          rw [List.length_drop] at hd
          simp only [List.length_cons] at hj h1 h2 hd
          unfold dropBlanks
          omega
        by_cases hh : startsWith ("<!--".data) (List.dropWhile isPyWs l) = true
        · rw [if_pos hh, if_pos hh]
          cases hf : findCloserIdx ("-->".data) (l :: rest) with
          | none => rfl
          | some j =>
            obtain ⟨b1, b2⟩ := hb j (findCloserIdx_lt _ _ _ hf)
            exact ih _ m2 b1 b2
        · rw [if_neg hh, if_neg hh]
          by_cases hr : startsWith ("@*".data) (List.dropWhile isPyWs l) = true
          · rw [if_pos hr, if_pos hr]
            cases hf : findCloserIdx ("*@".data) (l :: rest) with
            | none => rfl
            | some j =>
              obtain ⟨b1, b2⟩ := hb j (findCloserIdx_lt _ _ _ hf)
              exact ih _ m2 b1 b2
          · rw [if_neg hr, if_neg hr]

/-- One canonical unfolding step of the comment-dropping loop. -/
theorem stripNoiseGo_cons (l : List Char) (rest : List (List Char)) :
    stripNoiseGo (l :: rest) =
      (if startsWith ("<!--".data) (List.dropWhile isPyWs l) = true then
        match findCloserIdx ("-->".data) (l :: rest) with
        | some j => stripNoiseGo (dropBlanks (List.drop (j + 1) (l :: rest)))
        | none => l :: rest
      else if startsWith ("@*".data) (List.dropWhile isPyWs l) = true then
        match findCloserIdx ("*@".data) (l :: rest) with
        | some j => stripNoiseGo (dropBlanks (List.drop (j + 1) (l :: rest)))
        | none => l :: rest
      else l :: rest) := by
  show stripNoiseGoF (rest.length + 1) (l :: rest) = _
  rw [stripNoiseGoF.eq_3]
  have harm : ∀ j, j < (l :: rest).length →
      stripNoiseGoF rest.length (dropBlanks (List.drop (j + 1) (l :: rest)))
        = stripNoiseGo (dropBlanks (List.drop (j + 1) (l :: rest))) := by
    intro j hj
    have hd := dropWhileL_length_le isBlankLine (List.drop (j + 1) (l :: rest))
    rw [List.length_drop] at hd
    simp only [List.length_cons] at hj hd
    exact stripNoiseGoF_fuel rest.length _ _ (by unfold dropBlanks; omega) (le_refl _)
  by_cases hh : startsWith ("<!--".data) (List.dropWhile isPyWs l) = true
  · rw [if_pos hh, if_pos hh]
    cases hf : findCloserIdx ("-->".data) (l :: rest) with
    | none => rfl
    | some j => exact harm j (findCloserIdx_lt _ _ _ hf)
  · rw [if_neg hh, if_neg hh]
    by_cases hr : startsWith ("@*".data) (List.dropWhile isPyWs l) = true
    · rw [if_pos hr, if_pos hr]
      cases hf : findCloserIdx ("*@".data) (l :: rest) with
      | none => rfl
      | some j => exact harm j (findCloserIdx_lt _ _ _ hf)
    · rw [if_neg hr, if_neg hr]

/-- The comment-dropping loop only ever removes a prefix of the lines. -/
theorem stripNoiseGo_suffix (ls : List (List Char)) :
    ∃ k, stripNoiseGo ls = ls.drop k := by
  suffices h : ∀ (n : Nat) (ls : List (List Char)), ls.length = n →
      ∃ k, stripNoiseGo ls = ls.drop k from h ls.length ls rfl
  intro n
  induction n using Nat.strong_induction_on with
  | _ n ih =>
    intro ls hn
    cases ls with
    | nil => exact ⟨0, rfl⟩
    | cons l rest =>
      simp only [List.length_cons] at hn
      rw [stripNoiseGo_cons]
      have harm : ∀ j, j < rest.length + 1 →
          ∃ k, stripNoiseGo (dropBlanks (List.drop (j + 1) (l :: rest)))
            = (l :: rest).drop k := by
        intro j hj
        obtain ⟨k1, hk1⟩ := dropWhileL_suffix isBlankLine (List.drop (j + 1) (l :: rest))
        have hlen : (dropBlanks (List.drop (j + 1) (l :: rest))).length < n := by
          have hd := dropWhileL_length_le isBlankLine (List.drop (j + 1) (l :: rest))
          rw [List.length_drop] at hd
          simp only [List.length_cons] at hd
          unfold dropBlanks
          omega
        obtain ⟨k2, hk2⟩ := ih _ hlen (dropBlanks (List.drop (j + 1) (l :: rest))) rfl
        refine ⟨j + 1 + k1 + k2, ?_⟩
        rw [hk2]
        unfold dropBlanks
        rw [hk1, List.drop_drop, List.drop_drop]
        congr 1
        omega
      by_cases hh : startsWith ("<!--".data) (List.dropWhile isPyWs l) = true
      · rw [if_pos hh]
        cases hf : findCloserIdx ("-->".data) (l :: rest) with
        | none => exact ⟨0, rfl⟩
        | some j =>
          exact harm j (by simpa using findCloserIdx_lt _ _ _ hf)
      · rw [if_neg hh]
        by_cases hr : startsWith ("@*".data) (List.dropWhile isPyWs l) = true
        · rw [if_pos hr]
          cases hf : findCloserIdx ("*@".data) (l :: rest) with
          | none => exact ⟨0, rfl⟩
          | some j =>
            exact harm j (by simpa using findCloserIdx_lt _ _ _ hf)
        · rw [if_neg hr]
          exact ⟨0, rfl⟩

/-- The loop preserves "the first line is not blank". -/
theorem stripNoiseGo_head_not_blank (ls : List (List Char)) :
    (∀ l0, ls.head? = some l0 → isBlankLine l0 = false) →
      ∀ l0, (stripNoiseGo ls).head? = some l0 → isBlankLine l0 = false := by
  suffices h : ∀ (n : Nat) (ls : List (List Char)), ls.length = n →
      (∀ l0, ls.head? = some l0 → isBlankLine l0 = false) →
      ∀ l0, (stripNoiseGo ls).head? = some l0 → isBlankLine l0 = false from
    h ls.length ls rfl
  intro n
  induction n using Nat.strong_induction_on with
  | _ n ih =>
    intro ls hn
    cases ls with
    | nil =>
      intro hhb l0 h0
      rw [show stripNoiseGo ([] : List (List Char)) = [] from rfl] at h0
      simp at h0
    | cons l rest =>
      simp only [List.length_cons] at hn
      intro hhb
      rw [stripNoiseGo_cons]
      have harm : ∀ j, j < rest.length + 1 →
          ∀ l0, (stripNoiseGo (dropBlanks (List.drop (j + 1) (l :: rest)))).head?
              = some l0 → isBlankLine l0 = false := by
        intro j hj
        have hlen : (dropBlanks (List.drop (j + 1) (l :: rest))).length < n := by
          have hd := dropWhileL_length_le isBlankLine (List.drop (j + 1) (l :: rest))
          rw [List.length_drop] at hd
          simp only [List.length_cons] at hd
          unfold dropBlanks
          omega
        refine ih _ hlen _ rfl ?_
        intro l0 h0
        unfold dropBlanks at h0
        cases hdw : List.dropWhile isBlankLine (List.drop (j + 1) (l :: rest)) with
        | nil => rw [hdw] at h0; simp at h0
        | cons y ys =>
          rw [hdw] at h0
          simp only [List.head?_cons, Option.some.injEq] at h0
          rw [← h0]
          exact dropWhileL_head_false hdw
      by_cases hh : startsWith ("<!--".data) (List.dropWhile isPyWs l) = true
      · rw [if_pos hh]
        cases hf : findCloserIdx ("-->".data) (l :: rest) with
        | none => exact hhb
        | some j =>
          exact harm j (by simpa using findCloserIdx_lt _ _ _ hf)
      · rw [if_neg hh]
        by_cases hr : startsWith ("@*".data) (List.dropWhile isPyWs l) = true
        · rw [if_pos hr]
          cases hf : findCloserIdx ("*@".data) (l :: rest) with
          | none => exact hhb
          | some j =>
            exact harm j (by simpa using findCloserIdx_lt _ _ _ hf)
        · rw [if_neg hr]
          exact hhb

/-- The comment-dropping loop is idempotent. -/
theorem stripNoiseGo_fix (ls : List (List Char)) :
    stripNoiseGo (stripNoiseGo ls) = stripNoiseGo ls := by
  suffices h : ∀ (n : Nat) (ls : List (List Char)), ls.length = n →
      stripNoiseGo (stripNoiseGo ls) = stripNoiseGo ls from h ls.length ls rfl
  intro n
  induction n using Nat.strong_induction_on with
  | _ n ih =>
    intro ls hn
    cases ls with
    | nil => rfl
    | cons l rest =>
      simp only [List.length_cons] at hn
      rw [stripNoiseGo_cons]
      have harm : ∀ j, j < rest.length + 1 →
          stripNoiseGo (stripNoiseGo (dropBlanks (List.drop (j + 1) (l :: rest))))
            = stripNoiseGo (dropBlanks (List.drop (j + 1) (l :: rest))) := by
        intro j hj
        have hlen : (dropBlanks (List.drop (j + 1) (l :: rest))).length < n := by
          have hd := dropWhileL_length_le isBlankLine (List.drop (j + 1) (l :: rest))
          rw [List.length_drop] at hd
          simp only [List.length_cons] at hd
          unfold dropBlanks
          omega
        exact ih _ hlen _ rfl
      by_cases hh : startsWith ("<!--".data) (List.dropWhile isPyWs l) = true
      · rw [if_pos hh]
        cases hf : findCloserIdx ("-->".data) (l :: rest) with
        | none =>
          rw [stripNoiseGo_cons, if_pos hh, hf]
        | some j =>
          exact harm j (by simpa using findCloserIdx_lt _ _ _ hf)
      · rw [if_neg hh]
        by_cases hr : startsWith ("@*".data) (List.dropWhile isPyWs l) = true
        · rw [if_pos hr]
          cases hf : findCloserIdx ("*@".data) (l :: rest) with
          | none =>
            rw [stripNoiseGo_cons, if_neg hh, if_pos hr, hf]
          | some j =>
            exact harm j (by simpa using findCloserIdx_lt _ _ _ hf)
        · rw [if_neg hr]
          rw [stripNoiseGo_cons, if_neg hh, if_neg hr]

/-- A break-free line followed by `'\n'` splits to exactly that line. -/
theorem splitlines_line_nl (l : List Char) (hnb : ∀ c ∈ l, isLineBreak c = false) :
    splitlinesPy (l ++ ['\n']) = [l] := by
  cases hl : l with
  | nil => decide
  | cons x xs =>
    rw [← hl]
    rw [splitlines_append_nl_last l (by rw [hl]; simp)
      (fun c hc => by
        have hmem : c ∈ l := by
          obtain ⟨h9, heq⟩ := List.mem_getLast?_eq_getLast (Option.mem_def.mpr hc)
          rw [heq]
          exact List.getLast_mem h9
        exact hnb c hmem)]
    exact splitlines_single (by rw [hl]; simp) hnb

/-- Splitting is a left inverse of joining for break-free lines with a
nonempty final line. -/
theorem splitlines_joinLines :
    ∀ (M : List (List Char)),
      (∀ l ∈ M, ∀ c ∈ l, isLineBreak c = false) →
      M.getLast? ≠ some [] →
      splitlinesPy (joinLines M) = M := by
  intro M
  induction M with
  | nil => intro _ _; rfl
  | cons l rest ih =>
    intro hnb hlast
    cases rest with
    | nil =>
      have hlne : l ≠ [] := by
        intro hnil
        exact hlast (by rw [hnil]; rfl)
      rw [show joinLines [l] = l from rfl]
      exact splitlines_single hlne (hnb l (List.mem_cons_self _ _))
    | cons m rest2 =>
      rw [show joinLines (l :: m :: rest2) = l ++ '\n' :: joinLines (m :: rest2) from rfl,
        splitlines_append_nl, splitlines_line_nl l (hnb l (List.mem_cons_self _ _)),
        ih (fun l0 h0 => hnb l0 (List.mem_cons_of_mem _ h0))
          (by rwa [List.getLast?_cons_cons] at hlast)]
      rfl

/-- `_strip_leading_noise` on the empty text. -/
theorem strip_leading_noise_nil : strip_leading_noise [] = [] := rfl

/-- Claim C8 as amended: `_strip_leading_noise` is idempotent on every
input whose normalized form neither starts with a byte-order mark (a BOM
surviving in the middle of the original text) nor ends with a newline (a
trailing empty line kept by the first pass but dropped by the second). -/
theorem c8_amended (x : List Char)
    (h1 : (strip_leading_noise x).head? ≠ some '\uFEFF')
    (h2 : (strip_leading_noise x).getLast? ≠ some '\n') :
    strip_leading_noise (strip_leading_noise x) = strip_leading_noise x := by
  have hM : strip_leading_noise x
      = joinLines (stripNoiseGo (dropBlanks (splitlinesPy
          (x.dropWhile (fun c => c == '\uFEFF'))))) := rfl
  set M := stripNoiseGo (dropBlanks (splitlinesPy
    (x.dropWhile (fun c => c == '\uFEFF')))) with hMdef
  by_cases hjoin : joinLines M = []
  · rw [hM, hjoin, strip_leading_noise_nil]
  · -- lines of `M` contain no line break
    have hnb : ∀ l ∈ M, ∀ c ∈ l, isLineBreak c = false := by
      intro l hl
      obtain ⟨k, hk⟩ := stripNoiseGo_suffix (dropBlanks (splitlinesPy
        (x.dropWhile (fun c => c == '\uFEFF'))))
      rw [hMdef, hk] at hl
      have hl2 := List.mem_of_mem_drop hl
      obtain ⟨k2, hk2⟩ := dropWhileL_suffix isBlankLine (splitlinesPy
        (x.dropWhile (fun c => c == '\uFEFF')))
      rw [show dropBlanks (splitlinesPy (x.dropWhile (fun c => c == '\uFEFF')))
          = List.dropWhile isBlankLine (splitlinesPy
            (x.dropWhile (fun c => c == '\uFEFF'))) from rfl, hk2] at hl2
      exact splitlines_no_break (List.mem_of_mem_drop hl2)
    -- the final line of `M` is nonempty
    have hlastM : M.getLast? ≠ some [] := by
      intro hlast
      cases hMshape : M with
      | nil => rw [hMshape] at hjoin; exact hjoin rfl
      | cons m0 Mrest =>
        have : ∃ M', M = M' ++ [[]] := by
          obtain ⟨h9, heq⟩ := List.mem_getLast?_eq_getLast (Option.mem_def.mpr hlast)
          refine ⟨M.dropLast, ?_⟩
          conv_lhs => rw [← List.dropLast_append_getLast h9]
          rw [← heq]
        obtain ⟨M', hM'⟩ := this
        cases hM'' : M' with
        | nil =>
          rw [hM'', List.nil_append] at hM'
          rw [hM', show joinLines [[]] = [] from rfl] at hjoin
          exact hjoin rfl
        | cons q qs =>
          have : (strip_leading_noise x).getLast? = some '\n' := by
            rw [hM, hM', hM'', joinLines_append_last (q :: qs) (by simp) []]
            exact List.getLast?_concat _
          exact h2 this
    -- the head of `M` is not blank, hence not a BOM issue either
    have hhb : ∀ l0, M.head? = some l0 → isBlankLine l0 = false := by
      rw [hMdef]
      apply stripNoiseGo_head_not_blank
      intro l0 h0
      cases hdw : dropBlanks (splitlinesPy (x.dropWhile (fun c => c == '\uFEFF'))) with
      | nil => rw [hdw] at h0; simp at h0
      | cons y ys =>
        rw [hdw] at h0
        simp only [List.head?_cons, Option.some.injEq] at h0
        rw [← h0]
        exact dropWhileL_head_false hdw
    -- second pass: no BOM to strip
    have hbom : (joinLines M).dropWhile (fun c => c == '\uFEFF') = joinLines M := by
      cases hj : joinLines M with
      | nil => rfl
      | cons c0 cs =>
        rw [List.dropWhile_cons]
        rw [if_neg (by
          simp only [beq_iff_eq]
          intro hceq
          apply h1
          rw [hM, hj, hceq]
          rfl)]
    -- second pass: recover the very same lines
    have hrec : splitlinesPy (joinLines M) = M := splitlines_joinLines M hnb hlastM
    -- second pass: no leading blank lines
    have hdb : dropBlanks M = M := by
      cases hMshape : M with
      | nil => rfl
      | cons m0 Mrest =>
        unfold dropBlanks
        rw [List.dropWhile_cons,
          if_neg (by rw [hhb m0 (by rw [hMshape]; rfl)]; simp)]
    rw [hM, show strip_leading_noise (joinLines M)
        = joinLines (stripNoiseGo (dropBlanks (splitlinesPy
            ((joinLines M).dropWhile (fun c => c == '\uFEFF'))))) from rfl,
      hbom, hrec, hdb, hMdef, stripNoiseGo_fix]

/-- Witness for `c8_amended`: a document with one leading comment line. -/
theorem c8_witness :
    strip_leading_noise (strip_leading_noise ("<!-- c -->\nX\nY".data))
      = strip_leading_noise ("<!-- c -->\nX\nY".data) :=
  c8_amended ("<!-- c -->\nX\nY".data) (by decide) (by decide)

/-- Characters of a joined line list are the lines' characters plus the
`'\n'` separators. -/
theorem mem_joinLines :
    ∀ (M : List (List Char)) (c : Char), c ∈ joinLines M →
      c = '\n' ∨ ∃ l ∈ M, c ∈ l := by
  intro M
  induction M with
  | nil => intro c hc; simp [joinLines] at hc
  | cons l rest ih =>
    intro c hc
    cases rest with
    | nil =>
      right
      exact ⟨l, List.mem_cons_self _ _, hc⟩
    | cons m rest2 =>
      rw [show joinLines (l :: m :: rest2) = l ++ '\n' :: joinLines (m :: rest2)
        from rfl] at hc
      rcases List.mem_append.mp hc with h | h
      · exact Or.inr ⟨l, List.mem_cons_self _ _, h⟩
      · rcases List.mem_cons.mp h with h | h
        · exact Or.inl h
        · rcases ih c h with h | ⟨l0, hl0, hcl0⟩
          · exact Or.inl h
          · exact Or.inr ⟨l0, List.mem_cons_of_mem _ hl0, hcl0⟩

/-- Claim C10: `_strip_leading_noise` is line-granular.  (1) Its result is
always the tail, from some line index on, of the BOM-stripped input's
`splitlines`, rejoined with `'\n'` — so all CR/CRLF breaks become LF and a
final newline disappears; (2) in particular no `'\r'` survives; (3), (4)
when a leading comment's closer — HTML `-->` or Razor `*@` — shares its
physical line with trailing text, the whole line, trailing text included,
is discarded. -/
theorem c10_line_granular :
    (∀ x : List Char, ∃ i, strip_leading_noise x
        = joinLines ((splitlinesPy (x.dropWhile (fun c => c == '\uFEFF'))).drop i)) ∧
    (∀ x : List Char, ('\r' : Char) ∉ strip_leading_noise x) ∧
    (∀ (trail rest : List Char),
        (∀ c ∈ trail, isLineBreak c = false) →
        rest.head? ≠ some '\uFEFF' →
        strip_leading_noise (("<!-- c -->".data) ++ trail ++ '\n' :: rest)
          = strip_leading_noise rest) ∧
    (∀ (trail rest : List Char),
        (∀ c ∈ trail, isLineBreak c = false) →
        rest.head? ≠ some '\uFEFF' →
        strip_leading_noise (("@* c *@".data) ++ trail ++ '\n' :: rest)
          = strip_leading_noise rest) := by
  refine ⟨?_, ?_, ?_, ?_⟩
  · intro x
    obtain ⟨k, hk⟩ := stripNoiseGo_suffix (dropBlanks (splitlinesPy
      (x.dropWhile (fun c => c == '\uFEFF'))))
    obtain ⟨k2, hk2⟩ := dropWhileL_suffix isBlankLine (splitlinesPy
      (x.dropWhile (fun c => c == '\uFEFF')))
    refine ⟨k2 + k, ?_⟩
    rw [show strip_leading_noise x = joinLines (stripNoiseGo (dropBlanks (splitlinesPy
      (x.dropWhile (fun c => c == '\uFEFF'))))) from rfl, hk]
    unfold dropBlanks
    rw [hk2, List.drop_drop]
  · intro x hmem
    obtain ⟨k, hk⟩ := stripNoiseGo_suffix (dropBlanks (splitlinesPy
      (x.dropWhile (fun c => c == '\uFEFF'))))
    rw [show strip_leading_noise x = joinLines (stripNoiseGo (dropBlanks (splitlinesPy
      (x.dropWhile (fun c => c == '\uFEFF'))))) from rfl, hk] at hmem
    rcases mem_joinLines _ _ hmem with h | ⟨l, hl, hcl⟩
    · exact absurd h (by decide)
    · have hl2 := List.mem_of_mem_drop hl
      obtain ⟨k2, hk2⟩ := dropWhileL_suffix isBlankLine (splitlinesPy
        (x.dropWhile (fun c => c == '\uFEFF')))
      rw [show dropBlanks (splitlinesPy (x.dropWhile (fun c => c == '\uFEFF')))
          = List.dropWhile isBlankLine (splitlinesPy
            (x.dropWhile (fun c => c == '\uFEFF'))) from rfl, hk2] at hl2
      have := splitlines_no_break (List.mem_of_mem_drop hl2) '\r' hcl
      exact absurd this (by decide)
  · intro trail rest htr hrest
    have hopener : ∀ c ∈ ("<!-- c -->".data) ++ trail, isLineBreak c = false := by
      intro c hc
      rcases List.mem_append.mp hc with h | h
      · fin_cases h <;> decide
      · exact htr c h
    have hbom : (("<!-- c -->".data) ++ trail ++ '\n' :: rest).dropWhile
        (fun c => c == '\uFEFF') = ("<!-- c -->".data) ++ trail ++ '\n' :: rest := by
      rw [show ("<!-- c -->".data) ++ trail ++ '\n' :: rest
          = '<' :: ("!-- c -->".data ++ (trail ++ '\n' :: rest)) from rfl,
        List.dropWhile_cons, if_neg (by decide)]
    have hsplit : splitlinesPy (("<!-- c -->".data) ++ trail ++ '\n' :: rest)
        = (("<!-- c -->".data) ++ trail) :: splitlinesPy rest := by
      rw [show ("<!-- c -->".data) ++ trail ++ '\n' :: rest
          = (("<!-- c -->".data) ++ trail) ++ '\n' :: rest from by
        rw [List.append_assoc],
        splitlines_append_nl, splitlines_line_nl _ hopener]
      rfl
    have hnblank : isBlankLine (("<!-- c -->".data) ++ trail) = false := by
      rw [show ("<!-- c -->".data) ++ trail = '<' :: ("!-- c -->".data ++ trail)
        from rfl]
      simp only [isBlankLine, List.all_cons]
      rw [show isPyWs '<' = false from by decide]
      rfl
    have hll : List.dropWhile isPyWs (("<!-- c -->".data) ++ trail)
        = ("<!-- c -->".data) ++ trail := by
      rw [show ("<!-- c -->".data) ++ trail = '<' :: ("!-- c -->".data ++ trail)
        from rfl, List.dropWhile_cons, if_neg (by decide)]
    have hsw : startsWith ("<!--".data) (("<!-- c -->".data) ++ trail) = true := rfl
    have hcontains : containsSub ("-->".data) (("<!-- c -->".data) ++ trail) = true := by
      rfl
    have hfind : findCloserIdx ("-->".data)
        ((("<!-- c -->".data) ++ trail) :: splitlinesPy rest) = some 0 := by
      rw [findCloserIdx, if_pos hcontains]
    have hbomr : rest.dropWhile (fun c => c == '\uFEFF') = rest := by
      cases hr : rest with
      | nil => rfl
      | cons r0 rs =>
        rw [List.dropWhile_cons, if_neg (by
          simp only [beq_iff_eq]
          intro hc
          exact hrest (by rw [hr, hc]; rfl))]
    rw [show strip_leading_noise (("<!-- c -->".data) ++ trail ++ '\n' :: rest)
        = joinLines (stripNoiseGo (dropBlanks (splitlinesPy
            ((("<!-- c -->".data) ++ trail ++ '\n' :: rest).dropWhile
              (fun c => c == '\uFEFF'))))) from rfl,
      hbom, hsplit,
      show dropBlanks ((("<!-- c -->".data) ++ trail) :: splitlinesPy rest)
          = (("<!-- c -->".data) ++ trail) :: splitlinesPy rest from by
        unfold dropBlanks
        rw [List.dropWhile_cons, if_neg (by rw [hnblank]; simp)],
      stripNoiseGo_cons, hll, if_pos hsw, hfind,
      show strip_leading_noise rest = joinLines (stripNoiseGo (dropBlanks (splitlinesPy
        (rest.dropWhile (fun c => c == '\uFEFF'))))) from rfl, hbomr]
    rfl
  · intro trail rest htr hrest
    have hopener : ∀ c ∈ ("@* c *@".data) ++ trail, isLineBreak c = false := by
      intro c hc
      rcases List.mem_append.mp hc with h | h
      · fin_cases h <;> decide
      · exact htr c h
    have hbom : (("@* c *@".data) ++ trail ++ '\n' :: rest).dropWhile
        (fun c => c == '\uFEFF') = ("@* c *@".data) ++ trail ++ '\n' :: rest := by
      rw [show ("@* c *@".data) ++ trail ++ '\n' :: rest
          = '@' :: ("* c *@".data ++ (trail ++ '\n' :: rest)) from rfl,
        List.dropWhile_cons, if_neg (by decide)]
    have hsplit : splitlinesPy (("@* c *@".data) ++ trail ++ '\n' :: rest)
        = (("@* c *@".data) ++ trail) :: splitlinesPy rest := by
      rw [show ("@* c *@".data) ++ trail ++ '\n' :: rest
          = (("@* c *@".data) ++ trail) ++ '\n' :: rest from by
        rw [List.append_assoc],
        splitlines_append_nl, splitlines_line_nl _ hopener]
      rfl
    have hnblank : isBlankLine (("@* c *@".data) ++ trail) = false := by
      rw [show ("@* c *@".data) ++ trail = '@' :: ("* c *@".data ++ trail)
        from rfl]
      simp only [isBlankLine, List.all_cons]
      rw [show isPyWs '@' = false from by decide]
      rfl
    have hll : List.dropWhile isPyWs (("@* c *@".data) ++ trail)
        = ("@* c *@".data) ++ trail := by
      rw [show ("@* c *@".data) ++ trail = '@' :: ("* c *@".data ++ trail)
        from rfl, List.dropWhile_cons, if_neg (by decide)]
    have hswf : startsWith ("<!--".data) (("@* c *@".data) ++ trail) = false := rfl
    have hsw : startsWith ("@*".data) (("@* c *@".data) ++ trail) = true := rfl
    have hcontains : containsSub ("*@".data) (("@* c *@".data) ++ trail) = true := by
      rfl
    have hfind : findCloserIdx ("*@".data)
        ((("@* c *@".data) ++ trail) :: splitlinesPy rest) = some 0 := by
      rw [findCloserIdx, if_pos hcontains]
    have hbomr : rest.dropWhile (fun c => c == '\uFEFF') = rest := by
      cases hr : rest with
      | nil => rfl
      | cons r0 rs =>
        rw [List.dropWhile_cons, if_neg (by
          simp only [beq_iff_eq]
          intro hc
          exact hrest (by rw [hr, hc]; rfl))]
    rw [show strip_leading_noise (("@* c *@".data) ++ trail ++ '\n' :: rest)
        = joinLines (stripNoiseGo (dropBlanks (splitlinesPy
            ((("@* c *@".data) ++ trail ++ '\n' :: rest).dropWhile
              (fun c => c == '\uFEFF'))))) from rfl,
      hbom, hsplit,
      show dropBlanks ((("@* c *@".data) ++ trail) :: splitlinesPy rest)
          = (("@* c *@".data) ++ trail) :: splitlinesPy rest from by
        unfold dropBlanks
        rw [List.dropWhile_cons, if_neg (by rw [hnblank]; simp)],
      stripNoiseGo_cons, hll, if_neg (by rw [hswf]; simp), if_pos hsw, hfind,
      show strip_leading_noise rest = joinLines (stripNoiseGo (dropBlanks (splitlinesPy
        (rest.dropWhile (fun c => c == '\uFEFF'))))) from rfl, hbomr]
    rfl

/-- Witness for `c10_line_granular`: the text after a closer on the same
line is discarded along with the comment, for an HTML comment and for a
Razor comment. -/
theorem c10_witness :
    (strip_leading_noise (("<!-- c -->".data) ++ (" tail".data) ++ '\n' :: ("Z".data))
      = strip_leading_noise ("Z".data)) ∧
    (strip_leading_noise (("@* c *@".data) ++ (" tail".data) ++ '\n' :: ("Q".data))
      = strip_leading_noise ("Q".data)) :=
  ⟨c10_line_granular.2.2.1 (" tail".data) ("Z".data) (by decide) (by decide),
   c10_line_granular.2.2.2 (" tail".data) ("Q".data) (by decide) (by decide)⟩

/-!
### Region-wrapper stripping infrastructure
-/

theorem startsWith_length_le :
    ∀ (p s : List Char), startsWith p s = true → p.length ≤ s.length := by
  intro p
  induction p with
  | nil => intro s _; simp
  | cons a ps ih =>
    intro s h
    cases s with
    | nil => simp [startsWith] at h
    | cons x xs =>
      simp only [startsWith, Bool.and_eq_true] at h
      have := ih xs h.2
      simp only [List.length_cons]
      omega

theorem startsWith_self_append :
    ∀ (p r : List Char), startsWith p (p ++ r) = true := by
  intro p r
  induction p with
  | nil => rfl
  | cons a ps ih => simp [startsWith, ih]

theorem ciEq_refl (c : Char) : ciEq c c = true := by simp [ciEq]

theorem startsWithCI_length_le :
    ∀ (p s : List Char), startsWithCI p s = true → p.length ≤ s.length := by
  intro p
  induction p with
  | nil => intro s _; simp
  | cons a ps ih =>
    intro s h
    cases s with
    | nil => simp [startsWithCI] at h
    | cons x xs =>
      simp only [startsWithCI, Bool.and_eq_true] at h
      have := ih xs h.2
      simp only [List.length_cons]
      omega

theorem startsWithCI_self_append :
    ∀ (p r : List Char), startsWithCI p (p ++ r) = true := by
  intro p r
  induction p with
  | nil => rfl
  | cons a ps ih => simp [startsWithCI, ciEq_refl, ih]

/-- Only `'<'` itself case-folds to `'<'`. -/
theorem ciEq_lt_iff {c : Char} (h : ciEq '<' c = true) : c = '<' := by
  simp only [ciEq, beq_iff_eq] at h
  have h60 : foldNat c = 60 := by rw [← h]; decide
  unfold foldNat at h60
  split_ifs at h60 with hr
  · omega
  · have : c = Char.ofNat 60 := by rw [← h60, Char.ofNat_toNat]
    rw [this]

/-- A successful marker match consumes at least the opener. -/
theorem matchMarker_lt (kind : List Char) :
    ∀ (s rest : List Char), matchMarker kind s = some rest → rest.length < s.length := by
  intro s rest h
  simp only [matchMarker] at h
  split_ifs at h with h1 h2 h3 h4 h5
  case _ =>
    have hs4 : s.length ≥ 4 := startsWithCI_length_le _ _ h1
    · injection h with h
      subst h
      have b1 : ((s.drop 4).dropWhile isPyWs).length ≤ s.length - 4 := by
        have := dropWhileL_length_le isPyWs (s.drop 4)
        rw [List.length_drop] at this
        omega
      have b2 : ∀ (u : List Char) (n : Nat), (u.drop n).length ≤ u.length :=
        fun u n => by rw [List.length_drop]; omega
      have b3 : ∀ (u : List Char), (u.dropWhile isWordChar).length ≤ u.length :=
        dropWhileL_length_le isWordChar
      have b4 : ∀ (u : List Char), (u.dropWhile isPyWs).length ≤ u.length :=
        dropWhileL_length_le isPyWs
      have c1 := b2 ((s.drop 4).dropWhile isPyWs) 7
      have c2 := b4 (((s.drop 4).dropWhile isPyWs).drop 7)
      have c3 := b3 ((((s.drop 4).dropWhile isPyWs).drop 7).dropWhile isPyWs)
      have c4 := b2 (((((s.drop 4).dropWhile isPyWs).drop 7).dropWhile isPyWs).dropWhile
        isWordChar) (kind.length + 1)
      have c5 := b4 ((((((s.drop 4).dropWhile isPyWs).drop 7).dropWhile
        isPyWs).dropWhile isWordChar).drop (kind.length + 1))
      have c6 := b2 (((((((s.drop 4).dropWhile isPyWs).drop 7).dropWhile
        isPyWs).dropWhile isWordChar).drop (kind.length + 1)).dropWhile isPyWs) 3
      omega

theorem removeMarkersF_nil (kind : List Char) (f : Nat) :
    removeMarkersF kind f [] = [] := by
  cases f with
  | zero => rfl
  | succ m => rfl

theorem removeMarkersF_fuel (kind : List Char) :
    ∀ (f1 : Nat) (s : List Char) (f2 : Nat), s.length ≤ f1 → s.length ≤ f2 →
      removeMarkersF kind f1 s = removeMarkersF kind f2 s := by
  intro f1
  induction f1 with
  | zero =>
    intro s f2 h1 _
    have : s = [] := List.eq_nil_of_length_eq_zero (Nat.le_zero.mp h1)
    subst this
    rw [removeMarkersF_nil, removeMarkersF_nil]
  | succ m ih =>
    intro s f2 h1 h2
    cases s with
    | nil => rw [removeMarkersF_nil, removeMarkersF_nil]
    | cons x xs =>
      cases f2 with
      | zero => simp at h2
      | succ m2 =>
        rw [removeMarkersF.eq_3, removeMarkersF.eq_3]
        cases hm : matchMarker kind (x :: xs) with
        | none =>
          simp only [List.length_cons] at h1 h2
          rw [ih xs m2 (by omega) (by omega)]
        | some rest =>
          have := matchMarker_lt kind (x :: xs) rest hm
          simp only [List.length_cons] at h1 h2 this
          exact ih rest m2 (by omega) (by omega)

theorem removeMarkers_cons_match {kind x xs rest} (h : matchMarker kind (x :: xs) = some rest) :
    removeMarkers kind (x :: xs) = removeMarkers kind rest := by
  show removeMarkersF kind (xs.length + 1) (x :: xs) = removeMarkersF kind rest.length rest
  rw [removeMarkersF.eq_3, h]
  have := matchMarker_lt kind (x :: xs) rest h
  simp only [List.length_cons] at this
  exact removeMarkersF_fuel kind xs.length rest rest.length (by omega) (le_refl _)

theorem removeMarkers_cons_nomatch {kind x xs} (h : matchMarker kind (x :: xs) = none) :
    removeMarkers kind (x :: xs) = x :: removeMarkers kind xs := by
  show removeMarkersF kind (xs.length + 1) (x :: xs) = x :: removeMarkersF kind xs.length xs
  rw [removeMarkersF.eq_3, h]

/-- A marker match can only start at a `'<'`. -/
theorem matchMarker_head {kind : List Char} {s : List Char}
    (h : s.head? ≠ some '<') : matchMarker kind s = none := by
  unfold matchMarker
  rw [if_neg]
  intro hsw
  cases s with
  | nil => simp [startsWithCI] at hsw
  | cons x xs =>
    simp only [startsWithCI, Bool.and_eq_true] at hsw
    exact h (by rw [ciEq_lt_iff hsw.1]; rfl)

/-- Scanning passes over a `'<'`-free chunk unchanged. -/
theorem removeMarkers_skip (kind : List Char) :
    ∀ (a b : List Char), ('<' : Char) ∉ a →
      removeMarkers kind (a ++ b) = a ++ removeMarkers kind b := by
  intro a
  induction a with
  | nil => intro b _; rfl
  | cons x xs ih =>
    intro b ha
    rw [List.cons_append,
      removeMarkers_cons_nomatch (matchMarker_head (by
        simp only [List.head?_cons, ne_eq, Option.some.injEq]
        intro hx
        exact ha (by rw [hx]; exact List.mem_cons_self _ _))),
      ih b (fun hm => ha (List.mem_cons_of_mem _ hm))]
    rfl

theorem isWordChar_not_ws {c : Char} (h : isWordChar c = true) : isPyWs c = false := by
  by_contra hne
  have hws : isPyWs c = true := by
    cases hc : isPyWs c
    · exact absurd hc hne
    · rfl
  simp only [isPyWs, Bool.or_eq_true, beq_iff_eq] at hws
  rcases hws with (((((((((((((h1 | h1) | h1) | h1) | h1) | h1) | h1) | h1) | h1) | h1) |
    h1) | h1) | h1) | h1) <;> subst h1 <;> exact absurd h (by decide)

theorem isWordChar_ne_lt {c : Char} (h : isWordChar c = true) : c ≠ '<' := by
  intro he
  subst he
  exact absurd h (by decide)

/-- Staged evaluation of `matchMarker` on a well-formed region comment head. -/
theorem matchMarker_region (kind w r : List Char) (hw : w ≠ [])
    (hwall : ∀ c ∈ w, isWordChar c = true) :
    matchMarker kind (("<!-- REGION: ".data) ++ w ++ '.' :: r)
      = (if startsWithCI kind r = true then
           (if startsWithCI ("-->".data) ((r.drop kind.length).dropWhile isPyWs) = true
            then some (((r.drop kind.length).dropWhile isPyWs).drop 3) else none)
         else none) := by
  cases w with
  | nil => exact absurd rfl hw
  | cons w0 w' =>
  have hw0 : isWordChar w0 = true := hwall w0 (List.mem_cons_self _ _)
  unfold matchMarker
  rw [if_pos (by rfl)]
  have e1 : ((("<!-- REGION: ".data) ++ (w0 :: w') ++ '.' :: r).drop 4).dropWhile isPyWs
      = ("REGION: ".data) ++ (w0 :: w') ++ '.' :: r := by
    rfl
  rw [e1, if_pos (by rfl)]
  have e2 : ((("REGION: ".data) ++ (w0 :: w') ++ '.' :: r).drop 7).dropWhile isPyWs
      = (w0 :: w') ++ '.' :: r := by
    show ([' '] ++ (w0 :: w') ++ '.' :: r).dropWhile isPyWs = (w0 :: w') ++ '.' :: r
    simp only [List.cons_append, List.nil_append, List.dropWhile_cons]
    rw [if_pos (by decide), if_neg (by rw [isWordChar_not_ws hw0]; simp)]
  rw [e2]
  have hcnd : ((w0 :: w' ++ '.' :: r).take 1).all isWordChar = true ∧
      (w0 :: w' ++ '.' :: r) ≠ [] := by
    refine ⟨?_, by simp⟩
    rw [show (w0 :: w' ++ '.' :: r).take 1 = [w0] from rfl]
    simp [hw0]
  rw [if_pos hcnd]
  have e3 : ((w0 :: w') ++ '.' :: r).dropWhile isWordChar = '.' :: r := by
    have hall : (w0 :: w').dropWhile isWordChar = [] :=
      List.dropWhile_eq_nil_iff.mpr (fun x hx => hwall x hx)
    have hdot : ('.' :: r).dropWhile isWordChar = '.' :: r := by
      rw [List.dropWhile_cons, if_neg (by decide)]
    rw [List.dropWhile_append, hall, hdot]
    simp
  rw [e3]
  have e4 : startsWithCI ('.' :: kind) ('.' :: r) = startsWithCI kind r := by
    show (ciEq '.' '.' && startsWithCI kind r) = startsWithCI kind r
    rw [show ciEq '.' '.' = true from rfl]
    simp
  have e5 : ('.' :: r).drop (kind.length + 1) = r.drop kind.length := by
    simp [List.drop_succ_cons]
  simp only [e4, e5]

theorem removeMarkers_nil (kind : List Char) : removeMarkers kind [] = [] := rfl

theorem removeMarkers_match {kind s rest : List Char}
    (h : matchMarker kind s = some rest) :
    removeMarkers kind s = removeMarkers kind rest := by
  cases s with
  | nil => rw [matchMarker_head (by simp)] at h; exact absurd h (by simp)
  | cons x xs => exact removeMarkers_cons_match h

theorem removeMarkers_all_skip (kind a : List Char) (ha : ('<' : Char) ∉ a) :
    removeMarkers kind a = a := by
  have h := removeMarkers_skip kind a [] ha
  rw [List.append_nil, removeMarkers_nil, List.append_nil] at h
  exact h

/-- A canonical-case marker of the matching kind is consumed exactly. -/
theorem matchMarker_hit (kind w z : List Char) (hw : w ≠ [])
    (hwall : ∀ c ∈ w, isWordChar c = true) :
    matchMarker kind (("<!-- REGION: ".data) ++ w ++ '.' :: (kind ++ " -->".data ++ z))
      = some z := by
  rw [matchMarker_region kind w (kind ++ " -->".data ++ z) hw hwall]
  have h0 : startsWithCI kind (kind ++ " -->".data ++ z) = true := by
    rw [List.append_assoc]
    exact startsWithCI_self_append kind _
  rw [if_pos h0]
  have h1 : (kind ++ " -->".data ++ z).drop kind.length = " -->".data ++ z := by
    rw [List.append_assoc, List.drop_left]
  rw [h1]
  have h2 : (" -->".data ++ z).dropWhile isPyWs = "-->".data ++ z := by
    have ha : (" -->".data ++ z) = ' ' :: ("-->".data ++ z) := rfl
    have hb : ("-->".data ++ z) = '-' :: ("->".data ++ z) := rfl
    rw [ha, List.dropWhile_cons, if_pos (by decide), hb, List.dropWhile_cons,
      if_neg (by decide), ← hb]
  rw [h2, if_pos (startsWithCI_self_append ("-->".data) z)]
  rw [show ("-->".data ++ z).drop 3 = z from rfl]

/-- The `Start` pass does not match an `End` marker. -/
theorem matchMarker_start_on_end (w z : List Char) (hw : w ≠ [])
    (hwall : ∀ c ∈ w, isWordChar c = true) :
    matchMarker ("Start".data)
        (("<!-- REGION: ".data) ++ w ++ '.' :: ("End".data ++ " -->".data ++ z))
      = none := by
  rw [matchMarker_region _ w _ hw hwall]
  rw [if_neg (by
    rw [show startsWithCI ("Start".data) ("End".data ++ " -->".data ++ z) = false from rfl]
    simp)]

/-- A plain HTML comment is not a region marker. -/
theorem matchMarker_note (kind z : List Char) :
    matchMarker kind ("<!-- note -->".data ++ z) = none := rfl

theorem removeMarkers_note (kind b : List Char) :
    removeMarkers kind ("<!-- note -->".data ++ b)
      = "<!-- note -->".data ++ removeMarkers kind b := by
  have h0 : "<!-- note -->".data ++ b = '<' :: ("!-- note -->".data ++ b) := rfl
  rw [h0, removeMarkers_cons_nomatch
    (show matchMarker kind ('<' :: ("!-- note -->".data ++ b)) = none from
      matchMarker_note kind b)]
  rw [removeMarkers_skip kind ("!-- note -->".data) b (by decide)]
  exact (rfl : ('<' :: ("!-- note -->".data ++ removeMarkers kind b))
    = "<!-- note -->".data ++ removeMarkers kind b)

theorem removeMarkers_marker_start (w b : List Char) (hw : w ≠ [])
    (hwall : ∀ c ∈ w, isWordChar c = true) :
    removeMarkers ("Start".data)
        ((("<!-- REGION: ".data) ++ w ++ '.' :: ("Start".data ++ " -->".data)) ++ b)
      = removeMarkers ("Start".data) b := by
  have harg : (("<!-- REGION: ".data) ++ w ++ '.' :: ("Start".data ++ " -->".data)) ++ b
      = ("<!-- REGION: ".data) ++ w ++ '.' :: ("Start".data ++ " -->".data ++ b) := by
    simp [List.append_assoc, List.cons_append]
  rw [harg]
  exact removeMarkers_match (matchMarker_hit ("Start".data) w b hw hwall)

theorem removeMarkers_marker_end (w b : List Char) (hw : w ≠ [])
    (hwall : ∀ c ∈ w, isWordChar c = true) :
    removeMarkers ("End".data)
        ((("<!-- REGION: ".data) ++ w ++ '.' :: ("End".data ++ " -->".data)) ++ b)
      = removeMarkers ("End".data) b := by
  have harg : (("<!-- REGION: ".data) ++ w ++ '.' :: ("End".data ++ " -->".data)) ++ b
      = ("<!-- REGION: ".data) ++ w ++ '.' :: ("End".data ++ " -->".data ++ b) := by
    simp [List.append_assoc, List.cons_append]
  rw [harg]
  exact removeMarkers_match (matchMarker_hit ("End".data) w b hw hwall)

theorem removeMarkers_start_skips_end (w : List Char) (hw : w ≠ [])
    (hwall : ∀ c ∈ w, isWordChar c = true) :
    removeMarkers ("Start".data)
        (("<!-- REGION: ".data) ++ w ++ '.' :: ("End".data ++ " -->".data))
      = ("<!-- REGION: ".data) ++ w ++ '.' :: ("End".data ++ " -->".data) := by
  have hm : matchMarker ("Start".data)
      (("<!-- REGION: ".data) ++ w ++ '.' :: ("End".data ++ " -->".data)) = none := by
    have h := matchMarker_start_on_end w [] hw hwall
    rw [List.append_nil] at h
    exact h
  have hcons : ("<!-- REGION: ".data) ++ w ++ '.' :: ("End".data ++ " -->".data)
      = '<' :: (("!-- REGION: ".data) ++ w ++ '.' :: ("End".data ++ " -->".data)) := rfl
  have ha : ('<' : Char) ∉ ("!-- REGION: ".data) ++ w ++ '.' :: ("End".data ++ " -->".data) := by
    intro hmem
    rcases List.mem_append.mp hmem with h1 | h1
    · rcases List.mem_append.mp h1 with h2 | h2
      · exact absurd h2 (by decide)
      · exact absurd (hwall _ h2) (by decide)
    · exact absurd h1 (by decide)
  rw [hcons, removeMarkers_cons_nomatch
    (show matchMarker ("Start".data)
      ('<' :: (("!-- REGION: ".data) ++ w ++ '.' :: ("End".data ++ " -->".data))) = none from hm)]
  rw [removeMarkers_all_skip _ _ ha]

/-- First `re.sub` pass over the wrapped scenario text: exactly the `Start`
marker is removed. -/
theorem removeMarkers_start_scenario (w exp : List Char) (hw : w ≠ [])
    (hwall : ∀ c ∈ w, isWordChar c = true) (hexp : ('<' : Char) ∉ exp) :
    removeMarkers ("Start".data)
        ("\n\n".data ++ ("<!-- note -->".data ++ ("\n".data ++
          ((("<!-- REGION: ".data) ++ w ++ '.' :: ("Start".data ++ " -->".data)) ++
            ("\n".data ++ (exp ++ ("\n".data ++
              (("<!-- REGION: ".data) ++ w ++ '.' :: ("End".data ++ " -->".data)))))))))
      = "\n\n".data ++ ("<!-- note -->".data ++ ("\n".data ++
          ("\n".data ++ (exp ++ ("\n".data ++
            (("<!-- REGION: ".data) ++ w ++ '.' :: ("End".data ++ " -->".data))))))) := by
  rw [removeMarkers_skip _ ("\n\n".data) _ (by decide),
    removeMarkers_note,
    removeMarkers_skip _ ("\n".data) _ (by decide),
    removeMarkers_marker_start w _ hw hwall,
    removeMarkers_skip _ ("\n".data) _ (by decide),
    removeMarkers_skip _ exp _ hexp,
    removeMarkers_skip _ ("\n".data) _ (by decide),
    removeMarkers_start_skips_end w hw hwall]

/-- Second `re.sub` pass: the remaining `End` marker is removed. -/
theorem removeMarkers_end_scenario (w exp : List Char) (hw : w ≠ [])
    (hwall : ∀ c ∈ w, isWordChar c = true) (hexp : ('<' : Char) ∉ exp) :
    removeMarkers ("End".data)
        ("\n\n".data ++ ("<!-- note -->".data ++ ("\n".data ++
          ("\n".data ++ (exp ++ ("\n".data ++
            (("<!-- REGION: ".data) ++ w ++ '.' :: ("End".data ++ " -->".data))))))))
      = "\n\n".data ++ ("<!-- note -->".data ++ ("\n".data ++
          ("\n".data ++ (exp ++ "\n".data)))) := by
  have hE : removeMarkers ("End".data)
      (("<!-- REGION: ".data) ++ w ++ '.' :: ("End".data ++ " -->".data)) = [] := by
    have h := removeMarkers_marker_end w [] hw hwall
    rw [List.append_nil] at h
    rw [h, removeMarkers_nil]
  rw [removeMarkers_skip _ ("\n\n".data) _ (by decide),
    removeMarkers_note,
    removeMarkers_skip _ ("\n".data) _ (by decide),
    removeMarkers_skip _ ("\n".data) _ (by decide),
    removeMarkers_skip _ exp _ hexp,
    removeMarkers_skip _ ("\n".data) _ (by decide),
    hE, List.append_nil]

/-- Head-noise normalization erases the leading blank lines and the closed
comment left behind by wrapper stripping. -/
theorem strip_leading_noise_scenario (exp : List Char)
    (hbomh : exp.head? ≠ some '\uFEFF') (hne : exp ≠ [])
    (hlast : ∀ c, exp.getLast? = some c → isLineBreak c = false) :
    strip_leading_noise
        ("\n\n".data ++ ("<!-- note -->".data ++ ("\n".data ++
          ("\n".data ++ (exp ++ "\n".data)))))
      = strip_leading_noise exp := by
  have hbomc : ("\n\n".data ++ ("<!-- note -->".data ++ ("\n".data ++
      ("\n".data ++ (exp ++ "\n".data))))).dropWhile (fun c => c == '\uFEFF')
      = "\n\n".data ++ ("<!-- note -->".data ++ ("\n".data ++
        ("\n".data ++ (exp ++ "\n".data)))) := by
    rw [show "\n\n".data ++ ("<!-- note -->".data ++ ("\n".data ++
        ("\n".data ++ (exp ++ "\n".data))))
      = '\n' :: ('\n' :: ("<!-- note -->".data ++ ('\n' :: ('\n' :: (exp ++ ['\n'])))))
      from rfl, List.dropWhile_cons, if_neg (by decide)]
  have hbome : exp.dropWhile (fun c => c == '\uFEFF') = exp := by
    cases hx : exp with
    | nil => rfl
    | cons x xs =>
      rw [List.dropWhile_cons, if_neg (by
        simp only [beq_iff_eq]
        intro hc
        exact hbomh (by rw [hx, hc]; rfl))]
  have hsplit : splitlinesPy ('\n' :: ('\n' :: ("<!-- note -->".data ++
      ('\n' :: ('\n' :: (exp ++ ['\n']))))))
      = [] :: [] :: ("<!-- note -->".data) :: [] :: splitlinesPy exp := by
    rw [splitlines_nl_cons, splitlines_nl_cons,
      splitlines_append_nl ("<!-- note -->".data) ('\n' :: (exp ++ ['\n'])),
      splitlines_line_nl ("<!-- note -->".data) (by decide),
      splitlines_nl_cons, splitlines_append_nl_last exp hne hlast]
    rfl
  have hdb : dropBlanks ([] :: [] :: ("<!-- note -->".data) :: [] :: splitlinesPy exp)
      = ("<!-- note -->".data) :: [] :: splitlinesPy exp := by
    unfold dropBlanks
    rw [List.dropWhile_cons, if_pos (by decide), List.dropWhile_cons,
      if_pos (by decide), List.dropWhile_cons, if_neg (by decide)]
  have hfind : findCloserIdx ("-->".data)
      (("<!-- note -->".data) :: [] :: splitlinesPy exp) = some 0 := by
    rw [findCloserIdx, if_pos (by decide)]
  rw [show strip_leading_noise ("\n\n".data ++ ("<!-- note -->".data ++ ("\n".data ++
      ("\n".data ++ (exp ++ "\n".data)))))
      = joinLines (stripNoiseGo (dropBlanks (splitlinesPy
          (("\n\n".data ++ ("<!-- note -->".data ++ ("\n".data ++
            ("\n".data ++ (exp ++ "\n".data))))).dropWhile
            (fun c => c == '\uFEFF'))))) from rfl,
    hbomc,
    show splitlinesPy ("\n\n".data ++ ("<!-- note -->".data ++ ("\n".data ++
        ("\n".data ++ (exp ++ "\n".data)))))
      = splitlinesPy ('\n' :: ('\n' :: ("<!-- note -->".data ++
          ('\n' :: ('\n' :: (exp ++ ['\n'])))))) from rfl,
    hsplit, hdb, stripNoiseGo_cons,
    show List.dropWhile isPyWs ("<!-- note -->".data) = "<!-- note -->".data from by decide,
    if_pos (by decide), hfind,
    show strip_leading_noise exp = joinLines (stripNoiseGo (dropBlanks (splitlinesPy
      (exp.dropWhile (fun c => c == '\uFEFF'))))) from rfl,
    hbome]
  rfl

/-- C4: `compare` strips region-wrapper markers (case-insensitively) from
the candidate side only, strips head noise from both sides, and reports
`Match` iff the two sides agree after whitespace collapsing and trimming
(`norm_ws`); the diff is never part of the decision.  In particular a
candidate that differs from the expected text only by a
`REGION: <name>.Start` / `REGION: <name>.End` wrapper pair and by leading
blank lines and a leading comment compares as `Match`, and markers are
recognized in any letter case. -/
theorem c4 :
    (∀ expText gotRaw,
      Checker.compare expText gotRaw = ComparisonResult.Match ↔
        norm_ws (strip_leading_noise expText)
          = norm_ws (strip_leading_noise (strip_region_wrappers gotRaw))) ∧
    (∀ w exp, w ≠ [] → (∀ c ∈ w, isWordChar c = true) →
      ('<' : Char) ∉ exp → exp ≠ [] → exp.head? ≠ some '\uFEFF' →
      (∀ c, exp.getLast? = some c → isLineBreak c = false) →
      Checker.compare exp
        ("\n\n".data ++ ("<!-- note -->".data ++ ("\n".data ++
          ((("<!-- REGION: ".data) ++ w ++ '.' :: ("Start".data ++ " -->".data)) ++
            ("\n".data ++ (exp ++ ("\n".data ++
              (("<!-- REGION: ".data) ++ w ++ '.' :: ("End".data ++ " -->".data)))))))))
        = ComparisonResult.Match) ∧
    strip_region_wrappers ("<!-- region: stu.start -->a<!-- REGION: Stu.END -->".data)
      = "a".data := by
  refine ⟨?_, ?_, by decide⟩
  · intro expText gotRaw
    simp only [Checker.compare]
    split_ifs with h
    · exact ⟨fun _ => h, fun _ => rfl⟩
    · constructor
      · intro hc
        simp at hc
      · intro hn
        exact absurd hn h
  · intro w exp hw hwall hexp hne hbomh hlast
    simp only [Checker.compare, strip_region_wrappers]
    rw [removeMarkers_start_scenario w exp hw hwall hexp,
      removeMarkers_end_scenario w exp hw hwall hexp,
      strip_leading_noise_scenario exp hbomh hne hlast,
      if_pos rfl]

/-- Witness for C4: the expected text `"hello world"` matches its wrapped
copy inside `REGION: Student.Start` / `REGION: Student.End` markers with
leading blank lines and a leading comment. -/
theorem c4_witness :
    Checker.compare ("hello world".data)
        ("\n\n".data ++ ("<!-- note -->".data ++ ("\n".data ++
          ((("<!-- REGION: ".data) ++ "Student".data ++
              '.' :: ("Start".data ++ " -->".data)) ++
            ("\n".data ++ ("hello world".data ++ ("\n".data ++
              (("<!-- REGION: ".data) ++ "Student".data ++
                '.' :: ("End".data ++ " -->".data)))))))))
      = ComparisonResult.Match :=
  c4.2.1 ("Student".data) ("hello world".data) (by decide) (by decide) (by decide)
    (by decide) (by decide)
    (fun c hc => by injection hc with h; rw [← h]; decide)
